import Mathlib

/-!
Verification of the transaction simplification program: building a weighted
adjacency graph of pairwise debts, computing each person's net total debt,
and greedily matching net debtors to net creditors.

Python dictionaries are modelled as association lists that keep insertion
order, exactly as Python 3.7+ dictionaries do: writing to an existing key
rewrites its value in place, writing to a new key appends it at the end.
Amounts are modelled as rationals. The assert inside the update primitive
and the possible out-of-range list index inside the greedy loop are
modelled by returning an Option: none is a raised AssertionError or
IndexError.
-/

namespace Transaction

abbrev Person := String

/-- A pairwise transaction: debtor owes pay_to the given amount. -/
structure Txn where
  debtor : Person
  pay_to : Person
  amount : ℚ
deriving DecidableEq

abbrev Row := List (Person × ℚ)

abbrev Graph := List (Person × Row)

/-- Python dict read m[k]: the value of the first matching key. -/
def findVal {β : Type} : List (Person × β) → Person → Option β
  | [], _ => none
  | (k, v) :: rest, p => if k = p then some v else findVal rest p

/-- Python dict write m[k] = v: rewrite in place, else append at the end. -/
def upd {β : Type} : List (Person × β) → Person → β → List (Person × β)
  | [], k, v => [(k, v)]
  | (k1, v1) :: rest, k, v =>
    if k1 = k then (k, v) :: rest else (k1, v1) :: upd rest k v

/-- Python membership test: k in m.keys(). -/
def containsKey {β : Type} (m : List (Person × β)) (p : Person) : Bool :=
  (findVal m p).isSome

/-- The row of a person; in the source a present row is always accessed. -/
def getRow (g : Graph) (p : Person) : Row := (findVal g p).getD []

/-- The entry of a row pair, when present. -/
def edgeVal (g : Graph) (a b : Person) : Option ℚ := findVal (getRow g a) b

/-- The entry of a row pair, defaulting to zero when absent. -/
def edgeValD (g : Graph) (a b : Person) : ℚ := (edgeVal g a b).getD 0

/-- graph[a][b] = v as a single write. -/
def setEdge (g : Graph) (a b : Person) (v : ℚ) : Graph :=
  upd g a (upd (getRow g a) b v)

/-- update_adjacency_graph from the source: make sure both endpoints have
rows, then, if the forward entry exists, assert the backward entry exists
and accumulate both, else initialise both. The two writes are sequenced
exactly as in the source, so the second write observes the first (which
matters when debtor = pay_to). none models the AssertionError. -/
def update_adjacency_graph (g : Graph) (debtor pay_to : Person)
    (amount : ℚ) : Option Graph :=
  let g1 := if containsKey g debtor then g else upd g debtor []
  let g2 := if containsKey g1 pay_to then g1 else upd g1 pay_to []
  if containsKey (getRow g2 debtor) pay_to then
    if containsKey (getRow g2 pay_to) debtor then
      let g3 := setEdge g2 debtor pay_to (edgeValD g2 debtor pay_to + amount)
      some (setEdge g3 pay_to debtor (edgeValD g3 pay_to debtor - amount))
    else none
  else
    let g3 := setEdge g2 debtor pay_to amount
    some (setEdge g3 pay_to debtor (-amount))

/-- The set of people named by the transactions. The source builds a Python
set whose iteration order is unspecified; we fix one enumeration of it. -/
def peopleOf (ts : List Txn) : List Person :=
  (ts.map (fun t => t.debtor) ++ ts.map (fun t => t.pay_to)).dedup

/-- transaction_adjacency_graph from the source: give every person an empty
row, then apply the update primitive once per transaction, left to right. -/
def transaction_adjacency_graph (ts : List Txn) : Option Graph :=
  ts.foldlM
    (fun g t => update_adjacency_graph g t.debtor t.pay_to t.amount)
    ((peopleOf ts).map (fun p => (p, ([] : Row))))

/-- sum(row.values()). -/
def rowSum (r : Row) : ℚ := (r.map Prod.snd).sum

/-- people_and_total_debt from the source: the key list of the graph and
the mapping of each person to the sum of their row. -/
def people_and_total_debt (g : Graph) :
    List Person × List (Person × ℚ) :=
  (g.map Prod.fst, (g.map Prod.fst).map (fun k => (k, rowSum (getRow g k))))

/-- The net total debt of a person, read off the graph. -/
def totalD (g : Graph) (p : Person) : ℚ := rowSum (getRow g p)

/-- The mutable state of the greedy loop of simplify_transactions: the
giver and receiver work lists (name, remaining amount), the two cursors
and the accumulated simplified graph. -/
structure SimpState where
  givers : List (Person × ℚ)
  receivers : List (Person × ℚ)
  cg : Nat
  cr : Nat
  acc : Graph
deriving DecidableEq

/-- The outcome of one iteration of the greedy loop: loop exit, a raised
IndexError or AssertionError, or the next state. -/
inductive StepOut where
  | done (g : Graph)
  | fail
  | next (s : SimpState)
deriving DecidableEq

/-- One iteration of the while loop of simplify_transactions. The branch
on givers[cg][1] < receivers[cr][1] zeroes the smaller side, records the
payment through the update primitive, and advances the giver cursor in the
first branch and the receiver cursor in the second. -/
def simplifyStep (s : SimpState) : StepOut :=
  if hr : s.cr < s.receivers.length then
    match s.givers[s.cg]? with
    | none => .fail
    | some gv =>
      let rv := s.receivers.get ⟨s.cr, hr⟩
      if gv.2 < rv.2 then
        let give_amount := gv.2
        match update_adjacency_graph s.acc gv.1 rv.1 give_amount with
        | none => .fail
        | some acc1 =>
          .next ⟨s.givers.set s.cg (gv.1, gv.2 - give_amount),
                 s.receivers.set s.cr (rv.1, rv.2 - give_amount),
                 s.cg + 1, s.cr, acc1⟩
      else
        let give_amount := rv.2
        match update_adjacency_graph s.acc gv.1 rv.1 give_amount with
        | none => .fail
        | some acc1 =>
          .next ⟨s.givers.set s.cg (gv.1, gv.2 - give_amount),
                 s.receivers.set s.cr (rv.1, rv.2 - give_amount),
                 s.cg, s.cr + 1, acc1⟩
  else .done s.acc

/-- The while loop, run on fuel. Every iteration of the source loop
advances one cursor, so givers.length + receivers.length + 1 fuel is
enough to reach the loop exit whenever the source loop returns; none is
an exhausted fuel or a raised exception. -/
def simplifyLoop : Nat → SimpState → Option Graph
  | 0, _ => none
  | fuel + 1, s =>
    match simplifyStep s with
    | .done g => some g
    | .fail => none
    | .next s1 => simplifyLoop fuel s1

/-- simplify_transactions from the source: split the people into receivers
(negative total, remaining amount negated) and givers (positive total) in
the key order of the graph, then run the greedy loop from empty cursors
and an empty simplified graph. -/
def simplify_transactions (g : Graph) : Option Graph :=
  let pt := people_and_total_debt g
  let receivers := pt.1.filterMap (fun p =>
    if (findVal pt.2 p).getD 0 < 0 then some (p, -((findVal pt.2 p).getD 0))
    else none)
  let givers := pt.1.filterMap (fun p =>
    if (findVal pt.2 p).getD 0 > 0 then some (p, (findVal pt.2 p).getD 0)
    else none)
  simplifyLoop (givers.length + receivers.length + 1)
    ⟨givers, receivers, 0, 0, []⟩

/-- Antisymmetry of a graph: every present entry has a present opposite
entry holding the negated amount. -/
def Antisym (g : Graph) : Prop :=
  ∀ a b v, edgeVal g a b = some v → edgeVal g b a = some (-v)

/-- Mutual presence of edges: b is a key of graph[a] iff a is a key of
graph[b]. -/
def MutualEdges (g : Graph) : Prop :=
  ∀ a b, containsKey (getRow g a) b = containsKey (getRow g b) a

/-- The total value stored in a graph, row by row. -/
def graphSum (g : Graph) : ℚ := (g.map (fun pr => rowSum pr.2)).sum

theorem findVal_upd_self {β : Type} (m : List (Person × β)) (k : Person)
    (v : β) : findVal (upd m k v) k = some v := by
  induction m with
  | nil => simp [upd, findVal]
  | cons hd tl ih =>
    obtain ⟨k1, v1⟩ := hd
    by_cases h : k1 = k
    · simp [upd, h, findVal]
    · simp [upd, h, findVal, ih]

theorem findVal_upd_ne {β : Type} (m : List (Person × β)) (k p : Person)
    (v : β) (h : k ≠ p) : findVal (upd m k v) p = findVal m p := by
  induction m with
  | nil => simp [upd, findVal, h]
  | cons hd tl ih =>
    obtain ⟨k1, v1⟩ := hd
    by_cases h1 : k1 = k
    · subst h1
      simp [upd, findVal, h]
    · simp [upd, h1, findVal, ih]

theorem containsKey_upd {β : Type} (m : List (Person × β)) (k p : Person)
    (v : β) : containsKey (upd m k v) p = (containsKey m p || decide (p = k)) := by
  by_cases h : p = k
  · subst h
    simp [containsKey, findVal_upd_self]
  · simp [containsKey, findVal_upd_ne m k p v (fun hk => h hk.symm), h]

theorem containsKey_iff_mem_keys {β : Type} (m : List (Person × β))
    (p : Person) : containsKey m p = true ↔ p ∈ m.map Prod.fst := by
  induction m with
  | nil => simp [containsKey, findVal]
  | cons hd tl ih =>
    obtain ⟨k1, v1⟩ := hd
    by_cases h : k1 = p
    · simp [containsKey, findVal, h]
    · simp only [containsKey, findVal, if_neg h, List.map_cons, List.mem_cons]
      constructor
      · intro hh
        exact Or.inr (ih.mp hh)
      · rintro (hh | hh)
        · exact absurd hh.symm h
        · exact ih.mpr hh

theorem keys_upd_of_contains {β : Type} (m : List (Person × β)) (k : Person)
    (v : β) (h : containsKey m k = true) :
    (upd m k v).map Prod.fst = m.map Prod.fst := by
  induction m with
  | nil => simp [containsKey, findVal] at h
  | cons hd tl ih =>
    obtain ⟨k1, v1⟩ := hd
    by_cases h1 : k1 = k
    · simp [upd, h1]
    · simp [containsKey, findVal, h1] at h
      simp [upd, h1, ih h]

theorem rowSum_upd (r : Row) (k : Person) (v : ℚ) :
    rowSum (upd r k v) = rowSum r + v - (findVal r k).getD 0 := by
  induction r with
  | nil => simp [upd, rowSum, findVal]
  | cons hd tl ih =>
    obtain ⟨k1, v1⟩ := hd
    by_cases h : k1 = k
    · subst h
      simp [upd, rowSum, findVal]
      ring
    · simp [upd, h, rowSum, findVal] at ih ⊢
      rw [ih]
      ring

theorem graphSum_upd (g : Graph) (k : Person) (r : Row) :
    graphSum (upd g k r) = graphSum g + rowSum r - rowSum (getRow g k) := by
  induction g with
  | nil => simp [upd, graphSum, getRow, findVal, rowSum]
  | cons hd tl ih =>
    obtain ⟨k1, r1⟩ := hd
    by_cases h : k1 = k
    · subst h
      simp [upd, graphSum, getRow, findVal]
      ring
    · simp [upd, h, graphSum, getRow, findVal] at ih ⊢
      rw [ih]
      ring

theorem getRow_upd_self (g : Graph) (k : Person) (r : Row) :
    getRow (upd g k r) k = r := by
  simp [getRow, findVal_upd_self]

theorem getRow_upd_ne (g : Graph) (k p : Person) (r : Row) (h : k ≠ p) :
    getRow (upd g k r) p = getRow g p := by
  simp [getRow, findVal_upd_ne g k p r h]

theorem getRow_setEdge_self (g : Graph) (a b : Person) (v : ℚ) :
    getRow (setEdge g a b v) a = upd (getRow g a) b v :=
  getRow_upd_self g a _

theorem getRow_setEdge_ne (g : Graph) (a b q : Person) (v : ℚ) (h : a ≠ q) :
    getRow (setEdge g a b v) q = getRow g q :=
  getRow_upd_ne g a q _ h

theorem keys_setEdge_of_contains (g : Graph) (a b : Person) (v : ℚ)
    (h : containsKey g a = true) :
    (setEdge g a b v).map Prod.fst = g.map Prod.fst :=
  keys_upd_of_contains g a _ h

theorem edgeVal_setEdge (g : Graph) (a b : Person) (v : ℚ) (x y : Person) :
    edgeVal (setEdge g a b v) x y =
      if x = a ∧ y = b then some v else edgeVal g x y := by
  by_cases hx : x = a
  · subst hx
    by_cases hy : y = b
    · subst hy
      simp [edgeVal, getRow_setEdge_self, findVal_upd_self]
    · simp [edgeVal, getRow_setEdge_self, hy,
        findVal_upd_ne (getRow g x) b y v (fun hb => hy hb.symm)]
  · simp [edgeVal, getRow_setEdge_ne g a b x v (fun ha => hx ha.symm), hx]

theorem containsKey_setEdge (g : Graph) (a b : Person) (v : ℚ) (q : Person) :
    containsKey (setEdge g a b v) q = (containsKey g q || decide (q = a)) :=
  containsKey_upd g a q _

theorem totalD_setEdge_self (g : Graph) (a b : Person) (v : ℚ) :
    totalD (setEdge g a b v) a = totalD g a + v - edgeValD g a b := by
  simp [totalD, getRow_setEdge_self, rowSum_upd, edgeValD, edgeVal]

theorem totalD_setEdge_ne (g : Graph) (a b q : Person) (v : ℚ) (h : a ≠ q) :
    totalD (setEdge g a b v) q = totalD g q := by
  simp [totalD, getRow_setEdge_ne g a b q v h]

theorem graphSum_setEdge (g : Graph) (a b : Person) (v : ℚ) :
    graphSum (setEdge g a b v) = graphSum g + v - edgeValD g a b := by
  unfold setEdge
  rw [graphSum_upd, rowSum_upd]
  simp [edgeValD, edgeVal]
  ring

theorem getRow_of_not_contains (g : Graph) (d : Person)
    (h : containsKey g d = false) : getRow g d = [] := by
  unfold containsKey at h
  unfold getRow
  cases hf : findVal g d with
  | none => rfl
  | some r => rw [hf] at h; simp at h

theorem getRow_ensure (g : Graph) (d q : Person) :
    getRow (if containsKey g d then g else upd g d []) q = getRow g q := by
  by_cases h : containsKey g d
  · simp [h]
  · by_cases hq : d = q
    · subst hq
      simp [h, getRow_upd_self, getRow_of_not_contains g d (by simpa using h)]
    · simp [h, getRow_upd_ne g d q [] hq]

theorem containsKey_ensure (g : Graph) (d q : Person) :
    containsKey (if containsKey g d then g else upd g d []) q =
      (containsKey g q || decide (q = d)) := by
  by_cases h : containsKey g d
  · by_cases hq : q = d
    · subst hq
      simp [h]
    · simp [h, hq]
  · simp [h, containsKey_upd]

theorem graphSum_ensure (g : Graph) (d : Person) :
    graphSum (if containsKey g d then g else upd g d []) = graphSum g := by
  by_cases h : containsKey g d
  · simp [h]
  · simp [h, graphSum_upd, getRow_of_not_contains g d (by simpa using h),
      rowSum]

theorem edgeVal_absent_of_not_containsKey (g : Graph) (a b : Person)
    (h : containsKey (getRow g a) b = false) : edgeVal g a b = none := by
  unfold containsKey at h
  unfold edgeVal
  cases hf : findVal (getRow g a) b with
  | none => rfl
  | some v => rw [hf] at h; simp at h

/-- Running the update primitive is the three-stage computation: ensure
both rows exist, test the forward edge, then write the two entries. -/
theorem update_run (g : Graph) (d p : Person) (a : ℚ) :
    update_adjacency_graph g d p a =
      (if containsKey
          (getRow (if containsKey (if containsKey g d then g else upd g d []) p
            then (if containsKey g d then g else upd g d [])
            else upd (if containsKey g d then g else upd g d []) p []) d) p then
        if containsKey
            (getRow (if containsKey (if containsKey g d then g else upd g d []) p
              then (if containsKey g d then g else upd g d [])
              else upd (if containsKey g d then g else upd g d []) p []) p) d then
          some (setEdge
            (setEdge (if containsKey (if containsKey g d then g else upd g d []) p
              then (if containsKey g d then g else upd g d [])
              else upd (if containsKey g d then g else upd g d []) p []) d p
              (edgeValD (if containsKey (if containsKey g d then g else upd g d []) p
                then (if containsKey g d then g else upd g d [])
                else upd (if containsKey g d then g else upd g d []) p []) d p + a)) p d
            (edgeValD (setEdge (if containsKey (if containsKey g d then g else upd g d []) p
              then (if containsKey g d then g else upd g d [])
              else upd (if containsKey g d then g else upd g d []) p []) d p
              (edgeValD (if containsKey (if containsKey g d then g else upd g d []) p
                then (if containsKey g d then g else upd g d [])
                else upd (if containsKey g d then g else upd g d []) p []) d p + a)) p d - a))
        else none
      else
        some (setEdge
          (setEdge (if containsKey (if containsKey g d then g else upd g d []) p
            then (if containsKey g d then g else upd g d [])
            else upd (if containsKey g d then g else upd g d []) p []) d p a) p d (-a))) :=
  rfl

/-- Full characterisation of a successful update: under mutual presence of
edges and distinct endpoints, the update succeeds, adds the amount to the
forward entry and subtracts it from the backward entry, leaves every other
row alone, shifts the two endpoint totals by the amount, and keeps the
overall sum and (when both endpoints already have rows) the key list. -/
theorem update_spec (g : Graph) (d p : Person) (a : ℚ)
    (hdp : d ≠ p) (hmp : MutualEdges g) :
    ∃ g2, update_adjacency_graph g d p a = some g2
      ∧ (∀ x y, edgeVal g2 x y =
          if x = d ∧ y = p then some (edgeValD g d p + a)
          else if x = p ∧ y = d then some (edgeValD g p d - a)
          else edgeVal g x y)
      ∧ (∀ q, containsKey g2 q =
          (containsKey g q || decide (q = d) || decide (q = p)))
      ∧ (∀ q, q ≠ d → q ≠ p → getRow g2 q = getRow g q)
      ∧ totalD g2 d = totalD g d + a
      ∧ totalD g2 p = totalD g p - a
      ∧ graphSum g2 = graphSum g
      ∧ (containsKey g d = true → containsKey g p = true →
          g2.map Prod.fst = g.map Prod.fst) := by
  rw [update_run]
  set g1 := (if containsKey g d then g else upd g d []) with hg1
  set gE := (if containsKey g1 p then g1 else upd g1 p []) with hgE
  have hrowE : ∀ q, getRow gE q = getRow g q := by
    intro q
    rw [hgE]
    by_cases h : containsKey g1 p
    · simp only [if_pos h]
      rw [hg1]
      exact getRow_ensure g d q
    · simp only [if_neg h]
      have h1 : getRow (if containsKey g1 p then g1 else upd g1 p []) q =
          getRow g1 q := getRow_ensure g1 p q
      rw [if_neg h] at h1
      rw [h1, hg1]
      exact getRow_ensure g d q
  have hckE : ∀ q, containsKey gE q =
      (containsKey g q || decide (q = d) || decide (q = p)) := by
    intro q
    have h2 : containsKey gE q = (containsKey g1 q || decide (q = p)) := by
      rw [hgE]; exact containsKey_ensure g1 p q
    have h1 : containsKey g1 q = (containsKey g q || decide (q = d)) := by
      rw [hg1]; exact containsKey_ensure g d q
    rw [h2, h1]
  have hsumE : graphSum gE = graphSum g := by
    have h2 : graphSum gE = graphSum g1 := by
      rw [hgE]; exact graphSum_ensure g1 p
    have h1 : graphSum g1 = graphSum g := by
      rw [hg1]; exact graphSum_ensure g d
    rw [h2, h1]
  have hkeysE : containsKey g d = true → containsKey g p = true → gE = g := by
    intro hd hp
    have h1 : g1 = g := by rw [hg1, if_pos hd]
    rw [hgE, h1, if_pos hp]
  have hedgeE : ∀ x y, edgeVal gE x y = edgeVal g x y := by
    intro x y
    unfold edgeVal
    rw [hrowE]
  have hedgeDE : ∀ x y, edgeValD gE x y = edgeValD g x y := by
    intro x y
    unfold edgeValD
    rw [hedgeE]
  have htotE : ∀ q, totalD gE q = totalD g q := by
    intro q
    unfold totalD
    rw [hrowE]
  by_cases hfwd : containsKey (getRow gE d) p
  · have hbwd : containsKey (getRow gE p) d = true := by
      rw [hrowE, hmp p d, ← hrowE d]
      exact hfwd
    rw [if_pos hfwd, if_pos hbwd]
    set vF := edgeValD gE d p + a with hvF
    have hBrow : getRow (setEdge gE d p vF) p = getRow gE p :=
      getRow_setEdge_ne gE d p p vF hdp
    have hB : edgeValD (setEdge gE d p vF) p d = edgeValD g p d := by
      unfold edgeValD edgeVal
      rw [hBrow, hrowE]
    refine ⟨_, rfl, ?_, ?_, ?_, ?_, ?_, ?_, ?_⟩
    · intro x y
      rw [edgeVal_setEdge, edgeVal_setEdge]
      by_cases h1 : x = d ∧ y = p
      · have h2 : ¬(x = p ∧ y = d) := by
          rintro ⟨hp2, hd2⟩
          exact hdp (h1.1 ▸ hp2)
        rw [if_neg h2, if_pos h1, if_pos h1, hvF, hedgeDE]
      · by_cases h2 : x = p ∧ y = d
        · rw [if_pos h2, if_neg h1, if_pos h2, hB]
        · rw [if_neg h2, if_neg h1, if_neg h1, if_neg h2, hedgeE]
    · intro q
      rw [containsKey_setEdge, containsKey_setEdge, hckE q]
      by_cases hqd : q = d <;> by_cases hqp : q = p <;> simp [hqd, hqp]
    · intro q hqd hqp
      rw [getRow_setEdge_ne _ p d q _ (Ne.symm hqp),
        getRow_setEdge_ne _ d p q _ (Ne.symm hqd), hrowE]
    · rw [totalD_setEdge_ne _ p d d _ (Ne.symm hdp), totalD_setEdge_self,
        htotE, hvF, hedgeDE]
      ring
    · rw [totalD_setEdge_self, hB, totalD_setEdge_ne _ d p p _ hdp, htotE]
      ring
    · rw [graphSum_setEdge, hB, graphSum_setEdge, hsumE, hvF, hedgeDE]
      ring
    · intro hd hp
      have hEg : gE = g := hkeysE hd hp
      have hk1 : (setEdge gE d p vF).map Prod.fst = g.map Prod.fst := by
        rw [hEg]
        exact keys_upd_of_contains g d _ hd
      have hck1 : containsKey (setEdge gE d p vF) p = true := by
        rw [containsKey_iff_mem_keys, hk1, ← containsKey_iff_mem_keys]
        exact hp
      rw [keys_setEdge_of_contains _ p d _ hck1]
      exact hk1
  · have hfwdg : containsKey (getRow g d) p = false := by
      rw [← hrowE d]
      simpa using hfwd
    have hbwdg : containsKey (getRow g p) d = false := by
      rw [hmp p d]
      exact hfwdg
    have hDF0 : edgeValD g d p = 0 := by
      unfold edgeValD
      rw [edgeVal_absent_of_not_containsKey g d p hfwdg]
      rfl
    have hDB0 : edgeValD g p d = 0 := by
      unfold edgeValD
      rw [edgeVal_absent_of_not_containsKey g p d hbwdg]
      rfl
    rw [if_neg hfwd]
    have hBrow : getRow (setEdge gE d p a) p = getRow gE p :=
      getRow_setEdge_ne gE d p p a hdp
    have hB : edgeValD (setEdge gE d p a) p d = 0 := by
      have h1 : edgeVal (setEdge gE d p a) p d = edgeVal gE p d := by
        unfold edgeVal
        rw [hBrow]
      unfold edgeValD
      rw [h1, hedgeE, edgeVal_absent_of_not_containsKey g p d hbwdg]
      rfl
    refine ⟨_, rfl, ?_, ?_, ?_, ?_, ?_, ?_, ?_⟩
    · intro x y
      rw [edgeVal_setEdge, edgeVal_setEdge]
      by_cases h1 : x = d ∧ y = p
      · have h2 : ¬(x = p ∧ y = d) := by
          rintro ⟨hp2, hd2⟩
          exact hdp (h1.1 ▸ hp2)
        rw [if_neg h2, if_pos h1, if_pos h1, hDF0]
        norm_num
      · by_cases h2 : x = p ∧ y = d
        · rw [if_pos h2, if_neg h1, if_pos h2, hDB0]
          norm_num
        · rw [if_neg h2, if_neg h1, if_neg h1, if_neg h2, hedgeE]
    · intro q
      rw [containsKey_setEdge, containsKey_setEdge, hckE q]
      by_cases hqd : q = d <;> by_cases hqp : q = p <;> simp [hqd, hqp]
    · intro q hqd hqp
      rw [getRow_setEdge_ne _ p d q _ (Ne.symm hqp),
        getRow_setEdge_ne _ d p q _ (Ne.symm hqd), hrowE]
    · rw [totalD_setEdge_ne _ p d d _ (Ne.symm hdp), totalD_setEdge_self,
        htotE, hedgeDE, hDF0]
      ring
    · rw [totalD_setEdge_self, hB, totalD_setEdge_ne _ d p p _ hdp, htotE]
      ring
    · rw [graphSum_setEdge, hB, graphSum_setEdge, hsumE, hedgeDE, hDF0]
      ring
    · intro hd hp
      have hEg : gE = g := hkeysE hd hp
      have hk1 : (setEdge gE d p a).map Prod.fst = g.map Prod.fst := by
        rw [hEg]
        exact keys_upd_of_contains g d _ hd
      have hck1 : containsKey (setEdge gE d p a) p = true := by
        rw [containsKey_iff_mem_keys, hk1, ← containsKey_iff_mem_keys]
        exact hp
      rw [keys_setEdge_of_contains _ p d _ hck1]
      exact hk1

theorem antisym_edgeValD {g : Graph} (has : Antisym g) (a b : Person) :
    edgeValD g b a = -edgeValD g a b := by
  unfold edgeValD
  cases h : edgeVal g a b with
  | none =>
    cases h2 : edgeVal g b a with
    | none => simp
    | some w =>
      have hw := has b a w h2
      rw [h] at hw
      exact absurd hw (by simp)
  | some v =>
    rw [has a b v h]
    simp

theorem mutualEdges_of_antisym {g : Graph} (has : Antisym g) :
    MutualEdges g := by
  intro a b
  show (edgeVal g a b).isSome = (edgeVal g b a).isSome
  cases h : edgeVal g a b with
  | some v =>
    rw [has a b v h]
    rfl
  | none =>
    cases h2 : edgeVal g b a with
    | none => rfl
    | some w =>
      have hw := has b a w h2
      rw [h] at hw
      exact absurd hw (by simp)

theorem antisym_of_update_char {g g2 : Graph} {d p : Person} {a : ℚ}
    (hdp : d ≠ p) (has : Antisym g)
    (hchar : ∀ x y, edgeVal g2 x y =
      if x = d ∧ y = p then some (edgeValD g d p + a)
      else if x = p ∧ y = d then some (edgeValD g p d - a)
      else edgeVal g x y) : Antisym g2 := by
  intro x y v hxy
  rw [hchar] at hxy
  rw [hchar y x]
  by_cases h1 : x = d ∧ y = p
  · rw [if_pos h1] at hxy
    rw [if_neg (fun hc => hdp (h1.1.symm.trans hc.2)), if_pos ⟨h1.2, h1.1⟩]
    injection hxy with hv
    rw [Option.some.injEq, antisym_edgeValD has d p, ← hv]
    ring
  · by_cases h2 : x = p ∧ y = d
    · rw [if_neg h1, if_pos h2] at hxy
      rw [if_pos ⟨h2.2, h2.1⟩]
      injection hxy with hv
      rw [Option.some.injEq, ← hv, antisym_edgeValD has d p]
      ring
    · rw [if_neg h1, if_neg h2] at hxy
      rw [if_neg (fun hc => h2 ⟨hc.2, hc.1⟩), if_neg (fun hc => h1 ⟨hc.2, hc.1⟩)]
      exact has x y v hxy

/-- C3: the update primitive, applied with distinct endpoints to a graph
whose edges are mutually present and antisymmetric, never fails its
assertion and returns a graph whose edges are again mutually present and
antisymmetric. -/
theorem update_preserves_antisymmetry (g : Graph) (debtor pay_to : Person)
    (amount : ℚ) (hne : debtor ≠ pay_to) (hmut : MutualEdges g)
    (has : Antisym g) :
    ∃ g2, update_adjacency_graph g debtor pay_to amount = some g2
      ∧ MutualEdges g2 ∧ Antisym g2 := by
  obtain ⟨g2, hrun, hchar, -, -, -, -, -, -⟩ :=
    update_spec g debtor pay_to amount hne hmut
  have has2 := antisym_of_update_char hne has hchar
  exact ⟨g2, hrun, mutualEdges_of_antisym has2, has2⟩

/-- Witness for C3 at the empty graph, persons a and b, amount 5. -/
theorem update_preserves_antisymmetry_witness :
    ∃ g2, update_adjacency_graph [] "a" "b" 5 = some g2
      ∧ MutualEdges g2 ∧ Antisym g2 :=
  update_preserves_antisymmetry [] "a" "b" 5 (by decide)
    (fun _ _ => rfl)
    (by intro a b v h; simp [edgeVal, getRow, findVal] at h)

/-- C10: a single self-loop transaction of amount a leaves the entry
graph[d][d] = -a, because the backward write overwrites the forward one;
for nonzero a the resulting graph is not antisymmetric. -/
theorem self_loop_overwrite (d : Person) (a : ℚ) :
    ∃ g, transaction_adjacency_graph [⟨d, d, a⟩] = some g
      ∧ edgeVal g d d = some (-a)
      ∧ (a ≠ 0 → ¬ Antisym g) := by
  refine ⟨[(d, [(d, -a)])], ?_, ?_, ?_⟩
  · unfold transaction_adjacency_graph
    have hped : peopleOf [⟨d, d, a⟩] = [d] := by
      simp [peopleOf, List.dedup_cons_of_mem]
    rw [hped]
    simp [List.foldlM_cons, List.foldlM_nil, update_adjacency_graph,
      containsKey, findVal, getRow, setEdge, upd, edgeValD, edgeVal]
  · simp [edgeVal, getRow, findVal]
  · intro ha hA
    have hv := hA d d (-a) (by simp [edgeVal, getRow, findVal])
    have hl : edgeVal [(d, [(d, -a)])] d d = some (-a) := by
      simp [edgeVal, getRow, findVal]
    rw [hl, Option.some.injEq, neg_neg] at hv
    have ha0 : a = 0 := by linarith
    exact ha ha0

/-- Witness for C10 at person d, amount 5. -/
theorem self_loop_overwrite_witness :
    ∃ g, transaction_adjacency_graph [⟨"d", "d", 5⟩] = some g
      ∧ edgeVal g "d" "d" = some (-5) ∧ ¬ Antisym g := by
  obtain ⟨g, h1, h2, h3⟩ := self_loop_overwrite "d" 5
  exact ⟨g, h1, h2, h3 (by norm_num)⟩

/-- C9: the simplified plan is a function of the people_and_total_debt
result alone; two graphs with the same people in the same order and the
same totals simplify identically, whatever their pairwise edges. -/
theorem simplify_depends_only_on_totals (g1 g2 : Graph)
    (h : people_and_total_debt g1 = people_and_total_debt g2) :
    simplify_transactions g1 = simplify_transactions g2 := by
  unfold simplify_transactions
  rw [h]

/-- Witness for C9: two graphs with different edges but equal totals. -/
theorem simplify_depends_only_on_totals_witness :
    simplify_transactions
        [("A", [("B", 3)]), ("B", [("A", -3), ("C", 3)]), ("C", [("B", -3)])] =
      simplify_transactions
        [("A", [("C", 3)]), ("B", []), ("C", [("A", -3)])] :=
  simplify_depends_only_on_totals _ _ (by with_unfolding_all rfl)

/-- The nine transactions of the standard example of the tests. -/
def standardTransactions : List Txn :=
  [⟨"Kevin", "Xander", 800⟩, ⟨"John", "Xander", 750⟩,
   ⟨"William", "Xander", 800⟩, ⟨"Xander", "Kevin", 30⟩,
   ⟨"Kevin", "Xander", 20⟩, ⟨"John", "William", 100⟩,
   ⟨"William", "Kevin", 40⟩, ⟨"Xander", "John", 20⟩,
   ⟨"Kevin", "William", 12.5⟩]

/-- C7 (amended): on the standard example the pipeline yields net totals
Kevin = 762.5 (not 802.5 as stated), Xander = -2320, John = 830,
William = 727.5, and the simplified plan Kevin pays Xander 762.5,
William pays Xander 727.5, John pays Xander 830. -/
theorem standard_example_pipeline :
    ∃ g s, transaction_adjacency_graph standardTransactions = some g
      ∧ simplify_transactions g = some s
      ∧ totalD g "Kevin" = 762.5 ∧ totalD g "Xander" = -2320
      ∧ totalD g "John" = 830 ∧ totalD g "William" = 727.5
      ∧ edgeVal s "Kevin" "Xander" = some 762.5
      ∧ edgeVal s "William" "Xander" = some 727.5
      ∧ edgeVal s "John" "Xander" = some 830 :=
  ⟨[("Xander", [("Kevin", -790), ("John", -730), ("William", -800)]),
    ("Kevin", [("Xander", 790), ("William", -12.5 - 15)]),
    ("John", [("Xander", 730), ("William", 100)]),
    ("William", [("Xander", 800), ("John", -100), ("Kevin", 12.5 + 15)])],
   [("Kevin", [("Xander", 762.5)]),
    ("Xander", [("Kevin", -762.5), ("John", -830), ("William", -727.5)]),
    ("John", [("Xander", 830)]),
    ("William", [("Xander", 727.5)])],
   by with_unfolding_all rfl, by with_unfolding_all rfl,
   by with_unfolding_all rfl, by with_unfolding_all rfl,
   by with_unfolding_all rfl, by with_unfolding_all rfl,
   by with_unfolding_all rfl, by with_unfolding_all rfl,
   by with_unfolding_all rfl⟩

theorem getElem?_some_lt {α : Type} {l : List α} {i : Nat} {x : α}
    (h : l[i]? = some x) : i < l.length := by
  by_contra hlt
  rw [List.getElem?_eq_none (by omega)] at h
  cases h

theorem getRow_ensure2 (g : Graph) (d p q : Person) :
    getRow (if containsKey (if containsKey g d then g else upd g d []) p
      then (if containsKey g d then g else upd g d [])
      else upd (if containsKey g d then g else upd g d []) p []) q =
      getRow g q := by
  by_cases h : containsKey (if containsKey g d then g else upd g d []) p
  · rw [if_pos h]
    exact getRow_ensure g d q
  · rw [if_neg h]
    have h1 := getRow_ensure (if containsKey g d then g else upd g d []) p q
    rw [if_neg h] at h1
    rw [h1]
    exact getRow_ensure g d q

/-- The assert of the update primitive never fails on a graph whose edges
are mutually present, whatever the endpoints. -/
theorem update_some_of_mutual (g : Graph) (d p : Person) (a : ℚ)
    (hmp : MutualEdges g) :
    ∃ g2, update_adjacency_graph g d p a = some g2 := by
  rw [update_run]
  by_cases hfwd : containsKey
      (getRow (if containsKey (if containsKey g d then g else upd g d []) p
        then (if containsKey g d then g else upd g d [])
        else upd (if containsKey g d then g else upd g d []) p []) d) p
  · have hbwd : containsKey
        (getRow (if containsKey (if containsKey g d then g else upd g d []) p
          then (if containsKey g d then g else upd g d [])
          else upd (if containsKey g d then g else upd g d []) p []) p) d = true := by
      rw [getRow_ensure2, hmp p d, ← getRow_ensure2 g d p d]
      exact hfwd
    rw [if_pos hfwd, if_pos hbwd]
    exact ⟨_, rfl⟩
  · rw [if_neg hfwd]
    exact ⟨_, rfl⟩

theorem mutualEdges_of_update_char {g g2 : Graph} {d p : Person} {a : ℚ}
    (hdp : d ≠ p) (hmp : MutualEdges g)
    (hchar : ∀ x y, edgeVal g2 x y =
      if x = d ∧ y = p then some (edgeValD g d p + a)
      else if x = p ∧ y = d then some (edgeValD g p d - a)
      else edgeVal g x y) : MutualEdges g2 := by
  intro x y
  show (edgeVal g2 x y).isSome = (edgeVal g2 y x).isSome
  rw [hchar x y, hchar y x]
  by_cases h1 : x = d ∧ y = p
  · rw [if_pos h1, if_neg (fun hc => hdp (h1.1.symm.trans hc.2)),
      if_pos ⟨h1.2, h1.1⟩]
    rfl
  · by_cases h2 : x = p ∧ y = d
    · rw [if_neg h1, if_pos h2, if_pos ⟨h2.2, h2.1⟩]
      rfl
    · rw [if_neg h1, if_neg h2, if_neg (fun hc => h2 ⟨hc.2, hc.1⟩),
        if_neg (fun hc => h1 ⟨hc.2, hc.1⟩)]
      exact hmp x y

/-- C6 as stated is false: in the state reached at the start of the
greedy loop for the transactions A owes C 5 and B owes D 5, the current
giver and receiver remaining amounts tie at 5, and the iteration advances
the receiver cursor while leaving the giver cursor in place. -/
theorem tie_advances_receiver_first :
    ∃ s1, simplifyStep ⟨[("A", 5), ("B", 5)], [("C", 5), ("D", 5)], 0, 0, []⟩ =
        .next s1
      ∧ s1.cg = 0 ∧ s1.cr = 1 := by
  refine ⟨⟨[("A", 0), ("B", 5)], [("C", 0), ("D", 5)], 0, 1,
    [("A", [("C", 5)]), ("C", [("A", -5)])]⟩, ?_, rfl, rfl⟩
  with_unfolding_all rfl

/-- C6 (amended): when the current giver's and receiver's remaining
amounts are exactly equal, the iteration advances only the receiver
cursor, zeroing both remaining amounts; the giver cursor is then advanced
by the following iteration whenever a further receiver remains. -/
theorem tie_step_behavior (s : SimpState) (gv rv : Person × ℚ)
    (h1 : s.givers[s.cg]? = some gv)
    (h2 : s.receivers[s.cr]? = some rv)
    (heq : gv.2 = rv.2)
    (hne : gv.1 ≠ rv.1)
    (hmut : MutualEdges s.acc)
    (hnext : ∀ pr, s.receivers[s.cr + 1]? = some pr → 0 < pr.2) :
    ∃ acc1, simplifyStep s =
        .next ⟨s.givers.set s.cg (gv.1, 0), s.receivers.set s.cr (rv.1, 0),
               s.cg, s.cr + 1, acc1⟩
      ∧ (s.cr + 1 < s.receivers.length →
          ∃ s2, simplifyStep ⟨s.givers.set s.cg (gv.1, 0),
              s.receivers.set s.cr (rv.1, 0), s.cg, s.cr + 1, acc1⟩ =
            .next s2 ∧ s2.cg = s.cg + 1 ∧ s2.cr = s.cr + 1) := by
  have hcr : s.cr < s.receivers.length := getElem?_some_lt h2
  have hcg : s.cg < s.givers.length := getElem?_some_lt h1
  obtain ⟨acc1, hupd, hchar, -, -, -, -, -, -⟩ :=
    update_spec s.acc gv.1 rv.1 rv.2 hne hmut
  have hmut1 : MutualEdges acc1 := mutualEdges_of_update_char hne hmut hchar
  have hget : s.receivers[s.cr] = rv := by
    have hh := List.getElem?_eq_getElem hcr
    rw [h2] at hh
    exact (Option.some.inj hh).symm
  have hstep : simplifyStep s =
      .next ⟨s.givers.set s.cg (gv.1, 0), s.receivers.set s.cr (rv.1, 0),
             s.cg, s.cr + 1, acc1⟩ := by
    unfold simplifyStep
    rw [dif_pos hcr, h1]
    simp only [List.get_eq_getElem, hget]
    rw [if_neg (by rw [heq]; exact lt_irrefl rv.2), hupd]
    rw [heq, sub_self]
  refine ⟨acc1, hstep, ?_⟩
  intro hlt
  obtain ⟨rv2, hrv2⟩ : ∃ rv2, s.receivers[s.cr + 1]? = some rv2 := by
    cases hh : s.receivers[s.cr + 1]? with
    | none =>
      rw [List.getElem?_eq_none_iff] at hh
      omega
    | some x => exact ⟨x, rfl⟩
  have hrv2pos : 0 < rv2.2 := hnext rv2 hrv2
  obtain ⟨acc2, hupd2⟩ := update_some_of_mutual acc1 gv.1 rv2.1 0 hmut1
  have hcr1 : s.cr + 1 < (s.receivers.set s.cr (rv.1, 0)).length := by
    rw [List.length_set]
    exact hlt
  have hg1 : (s.givers.set s.cg (gv.1, 0))[s.cg]? = some (gv.1, 0) := by
    rw [List.getElem?_set]
    simp [hcg]
  have hget2 : (s.receivers.set s.cr (rv.1, 0))[s.cr + 1] = rv2 := by
    have hh := List.getElem?_eq_getElem hcr1
    rw [List.getElem?_set_ne (by omega)] at hh
    rw [hrv2] at hh
    exact (Option.some.inj hh).symm
  refine ⟨⟨(s.givers.set s.cg (gv.1, 0)).set s.cg (gv.1, 0 - 0),
      (s.receivers.set s.cr (rv.1, 0)).set (s.cr + 1) (rv2.1, rv2.2 - 0),
      s.cg + 1, s.cr + 1, acc2⟩, ?_, rfl, rfl⟩
  unfold simplifyStep
  rw [dif_pos hcr1, hg1]
  simp only [List.get_eq_getElem, hget2]
  rw [if_pos (by simpa using hrv2pos), hupd2]

/-- Witness for C6 at the tie state of the A owes C 5, B owes D 5 run. -/
theorem tie_step_behavior_witness :
    ∃ acc1, simplifyStep ⟨[("A", 5), ("B", 5)], [("C", 5), ("D", 5)], 0, 0, []⟩ =
        .next ⟨([("A", 5), ("B", 5)] : List (Person × ℚ)).set 0 ("A", 0),
               ([("C", 5), ("D", 5)] : List (Person × ℚ)).set 0 ("C", 0),
               0, 0 + 1, acc1⟩
      ∧ (0 + 1 < ([("C", 5), ("D", 5)] : List (Person × ℚ)).length →
          ∃ s2, simplifyStep ⟨([("A", 5), ("B", 5)] : List (Person × ℚ)).set 0 ("A", 0),
              ([("C", 5), ("D", 5)] : List (Person × ℚ)).set 0 ("C", 0),
              0, 0 + 1, acc1⟩ = .next s2 ∧ s2.cg = 0 + 1 ∧ s2.cr = 0 + 1) :=
  tie_step_behavior ⟨[("A", 5), ("B", 5)], [("C", 5), ("D", 5)], 0, 0, []⟩
    ("A", 5) ("C", 5) rfl rfl rfl (by decide) (fun _ _ => rfl)
    (by intro pr h
        have h2 : some (("D", 5) : Person × ℚ) = some pr := h
        injection h2 with h3
        rw [← h3]
        norm_num)

/-- The row of any graph whose rows are all empty is empty. -/
theorem getRow_init (ps : List Person) (q : Person) :
    getRow (ps.map (fun p => (p, ([] : Row)))) q = [] := by
  induction ps with
  | nil => rfl
  | cons p ps ih =>
    by_cases h : p = q
    · simp [getRow, findVal, h]
    · simpa [getRow, findVal, h] using ih

theorem keys_init (ps : List Person) :
    ((ps.map (fun p => (p, ([] : Row)))).map Prod.fst) = ps := by
  induction ps with
  | nil => rfl
  | cons p ps ih => simp [ih]

theorem graphSum_init (ps : List Person) :
    graphSum (ps.map (fun p => (p, ([] : Row)))) = 0 := by
  induction ps with
  | nil => rfl
  | cons p ps ih => simpa [graphSum, rowSum] using ih

theorem mutualEdges_init (ps : List Person) :
    MutualEdges (ps.map (fun p => (p, ([] : Row)))) := by
  intro a b
  rw [getRow_init, getRow_init]
  rfl

/-- Folding the update primitive over transactions with distinct
endpoints, starting from a graph with mutually present edges that already
has a row for every endpoint, succeeds and preserves mutual presence, the
overall sum and the key list. -/
theorem builder_fold_conservation (ts : List Txn) :
    ∀ g0 : Graph,
    (∀ t ∈ ts, t.debtor ≠ t.pay_to) →
    MutualEdges g0 →
    (∀ t ∈ ts, containsKey g0 t.debtor = true ∧ containsKey g0 t.pay_to = true) →
    ∃ g, List.foldlM
        (fun g t => update_adjacency_graph g t.debtor t.pay_to t.amount) g0 ts
        = some g
      ∧ MutualEdges g ∧ graphSum g = graphSum g0
      ∧ g.map Prod.fst = g0.map Prod.fst := by
  induction ts with
  | nil =>
    intro g0 _ hmp _
    exact ⟨g0, rfl, hmp, rfl, rfl⟩
  | cons t ts ih =>
    intro g0 hdp hmp hck
    obtain ⟨g1, hrun, hchar, hckchar, -, -, -, hsum1, hkeys1⟩ :=
      update_spec g0 t.debtor t.pay_to t.amount (hdp t (by simp)) hmp
    have hckt := hck t (by simp)
    have hkeys : g1.map Prod.fst = g0.map Prod.fst := hkeys1 hckt.1 hckt.2
    have hmp1 : MutualEdges g1 :=
      mutualEdges_of_update_char (hdp t (by simp)) hmp hchar
    have hck1 : ∀ u ∈ ts, containsKey g1 u.debtor = true
        ∧ containsKey g1 u.pay_to = true := by
      intro u hu
      have hu2 := hck u (by simp [hu])
      constructor
      · rw [containsKey_iff_mem_keys, hkeys, ← containsKey_iff_mem_keys]
        exact hu2.1
      · rw [containsKey_iff_mem_keys, hkeys, ← containsKey_iff_mem_keys]
        exact hu2.2
    obtain ⟨g, hgrun, hgmp, hgsum, hgkeys⟩ :=
      ih g1 (fun u hu => hdp u (by simp [hu])) hmp1 hck1
    refine ⟨g, ?_, hgmp, by rw [hgsum, hsum1], by rw [hgkeys, hkeys]⟩
    rw [List.foldlM_cons, hrun]
    simpa using hgrun

/-- With distinct keys, the sum of the per-person totals is the sum of
all entries of the graph. -/
theorem keys_totals_sum (g : Graph) (hnd : (g.map Prod.fst).Nodup) :
    ((g.map Prod.fst).map (fun k => rowSum (getRow g k))).sum = graphSum g := by
  induction g with
  | nil => rfl
  | cons hd tl ih =>
    obtain ⟨p, r⟩ := hd
    rw [List.map_cons, List.map_cons, List.sum_cons]
    rw [List.map_cons] at hnd
    have hpn : p ∉ tl.map Prod.fst := (List.nodup_cons.mp hnd).1
    have hrw : (tl.map Prod.fst).map (fun k => getRow ((p, r) :: tl) k |> rowSum)
        = (tl.map Prod.fst).map (fun k => rowSum (getRow tl k)) := by
      apply List.map_congr_left
      intro k hk
      have hkp : ¬p = k := fun hh => hpn (hh ▸ hk)
      simp [getRow, findVal, hkp]
    have hhead : getRow ((p, r) :: tl) p = r := by
      simp [getRow, findVal]
    rw [hhead, hrw, ih (List.nodup_cons.mp hnd).2]
    rfl

theorem mem_peopleOf_debtor {ts : List Txn} {t : Txn} (h : t ∈ ts) :
    t.debtor ∈ peopleOf ts := by
  unfold peopleOf
  rw [List.mem_dedup, List.mem_append]
  exact Or.inl (List.mem_map_of_mem _ h)

theorem mem_peopleOf_pay {ts : List Txn} {t : Txn} (h : t ∈ ts) :
    t.pay_to ∈ peopleOf ts := by
  unfold peopleOf
  rw [List.mem_dedup, List.mem_append]
  exact Or.inr (List.mem_map_of_mem _ h)

/-- The builder run as a fold from the initialised graph, with mutual
presence, zero sum and the people as keys. -/
theorem builder_spec (ts : List Txn)
    (hdp : ∀ t ∈ ts, t.debtor ≠ t.pay_to) :
    ∃ g, transaction_adjacency_graph ts = some g
      ∧ MutualEdges g ∧ graphSum g = 0
      ∧ g.map Prod.fst = peopleOf ts := by
  have hck : ∀ t ∈ ts, containsKey ((peopleOf ts).map (fun p => (p, ([] : Row)))) t.debtor = true
      ∧ containsKey ((peopleOf ts).map (fun p => (p, ([] : Row)))) t.pay_to = true := by
    intro t ht
    rw [containsKey_iff_mem_keys, containsKey_iff_mem_keys, keys_init]
    exact ⟨mem_peopleOf_debtor ht, mem_peopleOf_pay ht⟩
  obtain ⟨g, hrun, hmp, hsum, hkeys⟩ :=
    builder_fold_conservation ts _ hdp (mutualEdges_init (peopleOf ts)) hck
  refine ⟨g, hrun, hmp, ?_, ?_⟩
  · rw [hsum, graphSum_init]
  · rw [hkeys, keys_init]

/-- C1 (amended): for every transaction list in which each transaction
has distinct debtor and payee, the net-balance totals sum to exactly
zero. -/
theorem conservation_of_money (ts : List Txn)
    (hdp : ∀ t ∈ ts, t.debtor ≠ t.pay_to) :
    ∃ g, transaction_adjacency_graph ts = some g
      ∧ ((people_and_total_debt g).2.map Prod.snd).sum = 0 := by
  obtain ⟨g, hrun, hmp, hsum, hkeys⟩ := builder_spec ts hdp
  refine ⟨g, hrun, ?_⟩
  have hnd : (g.map Prod.fst).Nodup := by
    rw [hkeys]
    exact List.nodup_dedup _
  have hmaps : ((people_and_total_debt g).2.map Prod.snd)
      = (g.map Prod.fst).map (fun k => rowSum (getRow g k)) := by
    unfold people_and_total_debt
    rw [List.map_map]
    rfl
  rw [hmaps, keys_totals_sum g hnd, hsum]

/-- Witness for C1 on the single transaction A owes B 3. -/
theorem conservation_of_money_witness :
    ∃ g, transaction_adjacency_graph [⟨"A", "B", 3⟩] = some g
      ∧ ((people_and_total_debt g).2.map Prod.snd).sum = 0 :=
  conservation_of_money [⟨"A", "B", 3⟩] (by decide)

/-- C1 as stated is false on a self-loop: a single transaction d owes d 5
produces totals summing to -5, not 0. -/
theorem conservation_fails_on_self_loop :
    ∃ g, transaction_adjacency_graph [⟨"d", "d", 5⟩] = some g
      ∧ ((people_and_total_debt g).2.map Prod.snd).sum = -5
      ∧ (-5 : ℚ) ≠ 0 :=
  ⟨[("d", [("d", -5)])], by with_unfolding_all rfl,
   by with_unfolding_all rfl, by norm_num⟩

/-- The net signed amount the transactions contribute to the entry from a
towards b. -/
def netAmt (ts : List Txn) (a b : Person) : ℚ :=
  ((ts.filter (fun t => decide (t.debtor = a ∧ t.pay_to = b))).map Txn.amount).sum
    - ((ts.filter (fun t => decide (t.debtor = b ∧ t.pay_to = a))).map Txn.amount).sum

/-- Whether some transaction mentions the pair a, b in either direction. -/
def pairInB (ts : List Txn) (a b : Person) : Bool :=
  ts.any (fun t =>
    decide ((t.debtor = a ∧ t.pay_to = b) ∨ (t.debtor = b ∧ t.pay_to = a)))

theorem netAmt_cons (t : Txn) (ts : List Txn) (a b : Person) :
    netAmt (t :: ts) a b =
      ((if t.debtor = a ∧ t.pay_to = b then t.amount else 0)
        - (if t.debtor = b ∧ t.pay_to = a then t.amount else 0))
      + netAmt ts a b := by
  unfold netAmt
  rw [List.filter_cons, List.filter_cons]
  by_cases h1 : t.debtor = a ∧ t.pay_to = b
  · rw [if_pos (by simpa using h1), if_pos h1]
    by_cases h2 : t.debtor = b ∧ t.pay_to = a
    · rw [if_pos (by simpa using h2), if_pos h2]
      simp only [List.map_cons, List.sum_cons]
      ring
    · rw [if_neg (by simpa using h2), if_neg h2]
      simp only [List.map_cons, List.sum_cons]
      ring
  · rw [if_neg (by simpa using h1), if_neg h1]
    by_cases h2 : t.debtor = b ∧ t.pay_to = a
    · rw [if_pos (by simpa using h2), if_pos h2]
      simp only [List.map_cons, List.sum_cons]
      ring
    · rw [if_neg (by simpa using h2), if_neg h2]
      ring

theorem pairInB_cons (t : Txn) (ts : List Txn) (a b : Person) :
    pairInB (t :: ts) a b =
      (decide ((t.debtor = a ∧ t.pay_to = b) ∨ (t.debtor = b ∧ t.pay_to = a))
        || pairInB ts a b) := by
  unfold pairInB
  rw [List.any_cons]

/-- Folding the update primitive over the transactions changes every entry
by exactly the net amount the transactions contribute to it, and creates
exactly the edges of the mentioned pairs. -/
theorem builder_fold_edges (ts : List Txn) :
    ∀ g0 : Graph, (∀ t ∈ ts, t.debtor ≠ t.pay_to) → MutualEdges g0 →
    ∀ g, List.foldlM
        (fun g t => update_adjacency_graph g t.debtor t.pay_to t.amount) g0 ts
        = some g →
    (∀ a b, edgeValD g a b = edgeValD g0 a b + netAmt ts a b)
      ∧ (∀ a b, (edgeVal g a b).isSome
          = ((edgeVal g0 a b).isSome || pairInB ts a b)) := by
  induction ts with
  | nil =>
    intro g0 _ _ g hrun
    have hg : g0 = g := by simpa using hrun
    subst hg
    constructor
    · intro a b
      simp [netAmt]
    · intro a b
      simp [pairInB]
  | cons t ts ih =>
    intro g0 hdp hmp g hrun
    obtain ⟨g1, hrun1, hchar, -, -, -, -, -, -⟩ :=
      update_spec g0 t.debtor t.pay_to t.amount (hdp t (by simp)) hmp
    have hmp1 : MutualEdges g1 :=
      mutualEdges_of_update_char (hdp t (by simp)) hmp hchar
    rw [List.foldlM_cons, hrun1] at hrun
    have hrun2 : List.foldlM
        (fun g t => update_adjacency_graph g t.debtor t.pay_to t.amount) g1 ts
        = some g := by simpa using hrun
    obtain ⟨ihD, ihS⟩ := ih g1 (fun u hu => hdp u (by simp [hu])) hmp1 g hrun2
    have hδD : ∀ a b, edgeValD g1 a b = edgeValD g0 a b
        + ((if t.debtor = a ∧ t.pay_to = b then t.amount else 0)
          - (if t.debtor = b ∧ t.pay_to = a then t.amount else 0)) := by
      intro a b
      unfold edgeValD
      rw [hchar a b]
      by_cases h1 : a = t.debtor ∧ b = t.pay_to
      · obtain ⟨ha, hb⟩ := h1
        subst ha
        subst hb
        rw [if_pos ⟨rfl, rfl⟩, if_pos ⟨rfl, rfl⟩,
          if_neg (fun hc => hdp t (by simp) hc.1)]
        simp only [Option.getD_some]
        unfold edgeValD
        ring
      · by_cases h2 : a = t.pay_to ∧ b = t.debtor
        · obtain ⟨ha, hb⟩ := h2
          subst ha
          subst hb
          rw [if_neg h1, if_pos ⟨rfl, rfl⟩,
            if_neg (fun hc => hdp t (by simp) hc.1), if_pos ⟨rfl, rfl⟩]
          simp only [Option.getD_some]
          unfold edgeValD
          ring
        · have hc1 : ¬(t.debtor = a ∧ t.pay_to = b) := by
            rintro ⟨ha, hb⟩
            exact h1 ⟨ha.symm, hb.symm⟩
          have hc2 : ¬(t.debtor = b ∧ t.pay_to = a) := by
            rintro ⟨hb, ha⟩
            exact h2 ⟨ha.symm, hb.symm⟩
          rw [if_neg h1, if_neg h2, if_neg hc1, if_neg hc2]
          ring
    have hδS : ∀ a b, (edgeVal g1 a b).isSome
        = ((edgeVal g0 a b).isSome
          || decide ((t.debtor = a ∧ t.pay_to = b)
            ∨ (t.debtor = b ∧ t.pay_to = a))) := by
      intro a b
      rw [hchar a b]
      by_cases h1 : a = t.debtor ∧ b = t.pay_to
      · rw [if_pos h1]
        have hor : (t.debtor = a ∧ t.pay_to = b) ∨ (t.debtor = b ∧ t.pay_to = a) :=
          Or.inl ⟨h1.1.symm, h1.2.symm⟩
        simp [hor]
      · by_cases h2 : a = t.pay_to ∧ b = t.debtor
        · rw [if_neg h1, if_pos h2]
          have hor : (t.debtor = a ∧ t.pay_to = b) ∨ (t.debtor = b ∧ t.pay_to = a) :=
            Or.inr ⟨h2.2.symm, h2.1.symm⟩
          simp [hor]
        · have hnot : ¬((t.debtor = a ∧ t.pay_to = b)
              ∨ (t.debtor = b ∧ t.pay_to = a)) := by
            rintro (⟨ha, hb⟩ | ⟨hb, ha⟩)
            · exact h1 ⟨ha.symm, hb.symm⟩
            · exact h2 ⟨ha.symm, hb.symm⟩
          rw [if_neg h1, if_neg h2]
          simp [hnot]
    constructor
    · intro a b
      rw [ihD a b, hδD a b, netAmt_cons]
      ring
    · intro a b
      rw [ihS a b, hδS a b, pairInB_cons]
      by_cases hb : (t.debtor = a ∧ t.pay_to = b) ∨ (t.debtor = b ∧ t.pay_to = a)
        <;> simp [hb]

/-- The builder output read through netAmt and pairInB. -/
theorem builder_edges (ts : List Txn)
    (hdp : ∀ t ∈ ts, t.debtor ≠ t.pay_to) (g : Graph)
    (hrun : transaction_adjacency_graph ts = some g) :
    (∀ a b, edgeValD g a b = netAmt ts a b)
      ∧ (∀ a b, (edgeVal g a b).isSome = pairInB ts a b) := by
  have hinit : ∀ a b, edgeVal ((peopleOf ts).map (fun p => (p, ([] : Row)))) a b
      = none := by
    intro a b
    unfold edgeVal
    rw [getRow_init]
    rfl
  obtain ⟨hD, hS⟩ := builder_fold_edges ts _ hdp (mutualEdges_init (peopleOf ts))
    g hrun
  constructor
  · intro a b
    rw [hD a b]
    simp [edgeValD, hinit a b]
  · intro a b
    rw [hS a b, hinit a b]
    rfl

theorem option_rat_ext {o1 o2 : Option ℚ} (hs : o1.isSome = o2.isSome)
    (hd : o1.getD 0 = o2.getD 0) : o1 = o2 := by
  cases o1 <;> cases o2 <;> simp_all

/-- C8: the adjacency graph is permutation invariant as a mapping: same
key set and identical entries for every ordered pair. -/
theorem adjacency_graph_perm_invariant (ts1 ts2 : List Txn)
    (hperm : ts1.Perm ts2) (hdp : ∀ t ∈ ts1, t.debtor ≠ t.pay_to)
    (g1 g2 : Graph)
    (h1 : transaction_adjacency_graph ts1 = some g1)
    (h2 : transaction_adjacency_graph ts2 = some g2) :
    (∀ q, containsKey g1 q = containsKey g2 q)
      ∧ (∀ a b, edgeVal g1 a b = edgeVal g2 a b) := by
  have hdp2 : ∀ t ∈ ts2, t.debtor ≠ t.pay_to :=
    fun t ht => hdp t (hperm.mem_iff.mpr ht)
  obtain ⟨e1, s1⟩ := builder_edges ts1 hdp g1 h1
  obtain ⟨e2, s2⟩ := builder_edges ts2 hdp2 g2 h2
  obtain ⟨g1b, hrun1b, -, -, hkeys1⟩ := builder_spec ts1 hdp
  obtain ⟨g2b, hrun2b, -, -, hkeys2⟩ := builder_spec ts2 hdp2
  rw [h1] at hrun1b
  rw [h2] at hrun2b
  have hkg1 : g1.map Prod.fst = peopleOf ts1 := by
    rw [Option.some.inj hrun1b]
    exact hkeys1
  have hkg2 : g2.map Prod.fst = peopleOf ts2 := by
    rw [Option.some.inj hrun2b]
    exact hkeys2
  have hmem : ∀ x, x ∈ ts1 ↔ x ∈ ts2 := fun x => hperm.mem_iff
  constructor
  · intro q
    rw [Bool.eq_iff_iff, containsKey_iff_mem_keys, containsKey_iff_mem_keys,
      hkg1, hkg2]
    simp [peopleOf, List.mem_dedup, List.mem_append, List.mem_map, hmem]
  · intro a b
    apply option_rat_ext
    · rw [s1 a b, s2 a b, Bool.eq_iff_iff]
      simp [pairInB, List.any_eq_true, hmem]
    · have hD1 : (edgeVal g1 a b).getD 0 = netAmt ts1 a b := e1 a b
      have hD2 : (edgeVal g2 a b).getD 0 = netAmt ts2 a b := e2 a b
      rw [hD1, hD2]
      unfold netAmt
      rw [List.Perm.sum_eq (List.Perm.map _ (List.Perm.filter _ hperm)),
        List.Perm.sum_eq (List.Perm.map _ (List.Perm.filter _ hperm))]

/-- Witness for C8 on a two-transaction list and its swap. -/
theorem adjacency_graph_perm_invariant_witness :
    (∀ q, containsKey ([("A", [("B", 1)]), ("B", [("A", -1), ("C", 2)]),
        ("C", [("B", -2)])] : Graph) q
      = containsKey ([("A", [("B", 1)]), ("C", [("B", -2)]),
        ("B", [("C", 2), ("A", -1)])] : Graph) q)
      ∧ (∀ a b, edgeVal [("A", [("B", 1)]), ("B", [("A", -1), ("C", 2)]),
          ("C", [("B", -2)])] a b
        = edgeVal [("A", [("B", 1)]), ("C", [("B", -2)]),
          ("B", [("C", 2), ("A", -1)])] a b) :=
  adjacency_graph_perm_invariant
    [⟨"A", "B", 1⟩, ⟨"B", "C", 2⟩] [⟨"B", "C", 2⟩, ⟨"A", "B", 1⟩]
    (List.Perm.swap (⟨"B", "C", 2⟩ : Txn) (⟨"A", "B", 1⟩ : Txn) [])
    (by decide)
    [("A", [("B", 1)]), ("B", [("A", -1), ("C", 2)]), ("C", [("B", -2)])]
    [("A", [("B", 1)]), ("C", [("B", -2)]), ("B", [("C", 2), ("A", -1)])]
    (by with_unfolding_all rfl) (by with_unfolding_all rfl)

theorem rowSum_cons (pr : Person × ℚ) (r : Row) :
    rowSum (pr :: r) = pr.2 + rowSum r := by
  simp [rowSum]

/-- The remaining sum of a cursor list from an index on. -/
def tailSum (l : List (Person × ℚ)) (i : Nat) : ℚ := rowSum (l.drop i)

theorem tailSum_getElem {l : List (Person × ℚ)} {i : Nat} {pr : Person × ℚ}
    (h : l[i]? = some pr) : tailSum l i = pr.2 + tailSum l (i + 1) := by
  have hlt := getElem?_some_lt h
  have hget : l[i] = pr := by
    have hh := List.getElem?_eq_getElem hlt
    rw [h] at hh
    exact (Option.some.inj hh).symm
  unfold tailSum
  rw [List.drop_eq_getElem_cons hlt, hget, rowSum_cons]

theorem tailSum_ge_length {l : List (Person × ℚ)} {i : Nat}
    (h : l.length ≤ i) : tailSum l i = 0 := by
  unfold tailSum
  rw [List.drop_eq_nil_of_le h]
  rfl

theorem tailSum_set_lt {l : List (Person × ℚ)} {i j : Nat} (x : Person × ℚ)
    (h : i < j) : tailSum (l.set i x) j = tailSum l j := by
  unfold tailSum
  rw [List.drop_set, if_pos h]

theorem tailSum_set_self {l : List (Person × ℚ)} {i : Nat} (x : Person × ℚ)
    (h : i < l.length) :
    tailSum (l.set i x) i = x.2 + tailSum l (i + 1) := by
  have h1 : (l.set i x)[i]? = some x := by
    rw [List.getElem?_set]
    simp [h]
  rw [tailSum_getElem h1, tailSum_set_lt x (by omega)]

theorem rowSum_nonneg {l : List (Person × ℚ)}
    (h : ∀ pr ∈ l, 0 ≤ pr.2) : 0 ≤ rowSum l := by
  induction l with
  | nil => simp [rowSum]
  | cons hd tl ih =>
    rw [rowSum_cons]
    have h1 := h hd (by simp)
    have h2 := ih (fun pr hpr => h pr (by simp [hpr]))
    linarith

theorem rowSum_pos {l : List (Person × ℚ)}
    (h : ∀ pr ∈ l, 0 < pr.2) (hne : l ≠ []) : 0 < rowSum l := by
  cases l with
  | nil => exact absurd rfl hne
  | cons hd tl =>
    rw [rowSum_cons]
    have h1 := h hd (by simp)
    have h2 := rowSum_nonneg
      (fun pr hpr => le_of_lt (h pr (List.mem_cons_of_mem hd hpr)))
    linarith

theorem names_distinct : ∀ (l : List (Person × ℚ)),
    (l.map Prod.fst).Nodup →
    ∀ (i j : Nat) (pr qr : Person × ℚ), i ≠ j →
    l[i]? = some pr → l[j]? = some qr → pr.1 ≠ qr.1 := by
  intro l
  induction l with
  | nil =>
    intro _ i j pr qr _ hi
    simp at hi
  | cons hd tl ih =>
    intro hnd i j pr qr hij hi hj
    rw [List.map_cons, List.nodup_cons] at hnd
    match i, j with
    | 0, 0 => exact absurd rfl hij
    | 0, j + 1 =>
      have hpr : pr = hd := by simpa using hi.symm
      have hqr : qr ∈ tl := List.getElem?_mem (by simpa using hj)
      intro heq
      apply hnd.1
      rw [← hpr, heq]
      exact List.mem_map_of_mem _ hqr
    | i + 1, 0 =>
      have hqr : qr = hd := by simpa using hj.symm
      have hpr : pr ∈ tl := List.getElem?_mem (by simpa using hi)
      intro heq
      apply hnd.1
      rw [← hqr, ← heq]
      exact List.mem_map_of_mem _ hpr
    | i + 1, j + 1 =>
      exact ih hnd.2 i j pr qr (by omega) (by simpa using hi) (by simpa using hj)

theorem keys_set {l : List (Person × ℚ)} :
    ∀ {i : Nat} {pr : Person × ℚ}, l[i]? = some pr → ∀ x : ℚ,
    (l.set i (pr.1, x)).map Prod.fst = l.map Prod.fst := by
  induction l with
  | nil =>
    intro i pr h
    simp at h
  | cons hd tl ih =>
    intro i pr h x
    match i with
    | 0 =>
      have hpr : pr = hd := by simpa using h.symm
      simp [hpr]
    | i + 1 =>
      have h2 : tl[i]? = some pr := by simpa using h
      simp [ih h2 x]

theorem tail_entry {l : List (Person × ℚ)} {i : Nat} {qr : Person × ℚ}
    (h : qr ∈ l.drop i) : ∃ k : Nat, l[i + k]? = some qr := by
  obtain ⟨k, hk⟩ := List.mem_iff_getElem?.mp h
  rw [List.getElem?_drop] at hk
  exact ⟨k, hk⟩

theorem simplifyLoop_succ_next {fuel : Nat} {s s1 : SimpState}
    (h : simplifyStep s = .next s1) :
    simplifyLoop (fuel + 1) s = simplifyLoop fuel s1 := by
  show (match simplifyStep s with
    | StepOut.done g => some g
    | StepOut.fail => none
    | StepOut.next s2 => simplifyLoop fuel s2) = simplifyLoop fuel s1
  rw [h]

/-- The invariant carried by the greedy loop: cursor-list names are fixed,
the consumed prefixes are zeroed, the current giver is nonnegative, the
unconsumed tails are strictly positive, the remaining sums agree, and the
accumulated graph is an antisymmetric giver-to-receiver flow accounting
exactly for the amounts already transferred. -/
structure LoopInv (T : Person → ℚ) (G R : List Person)
    (s : SimpState) : Prop where
  gnames : s.givers.map Prod.fst = G
  rnames : s.receivers.map Prod.fst = R
  sums : tailSum s.givers s.cg = tailSum s.receivers s.cr
  gdone : ∀ (i : Nat) (pr : Person × ℚ), i < s.cg →
    s.givers[i]? = some pr → pr.2 = 0
  rdone : ∀ (j : Nat) (pr : Person × ℚ), j < s.cr →
    s.receivers[j]? = some pr → pr.2 = 0
  gcur : ∀ pr : Person × ℚ, s.givers[s.cg]? = some pr → 0 ≤ pr.2
  glater : ∀ (i : Nat) (pr : Person × ℚ), s.cg < i →
    s.givers[i]? = some pr → 0 < pr.2
  rlater : ∀ (j : Nat) (pr : Person × ℚ), s.cr ≤ j →
    s.receivers[j]? = some pr → 0 < pr.2
  acc_as : Antisym s.acc
  acc_pn : ∀ (a b : Person) (v : ℚ), edgeVal s.acc a b = some v →
    (a ∈ G ∧ b ∈ R ∧ 0 ≤ v) ∨ (a ∈ R ∧ b ∈ G ∧ v ≤ 0)
  acc_gsum : ∀ (i : Nat) (pr : Person × ℚ), s.givers[i]? = some pr →
    totalD s.acc pr.1 = T pr.1 - pr.2
  acc_rsum : ∀ (j : Nat) (pr : Person × ℚ), s.receivers[j]? = some pr →
    totalD s.acc pr.1 = T pr.1 + pr.2
  acc_osum : ∀ q : Person, q ∉ G → q ∉ R → totalD s.acc q = 0
/-- Master lemma for the greedy loop: from any invariant state with
enough fuel it reaches the loop exit, and the final graph is an
antisymmetric giver-to-receiver flow that realises every person's total
exactly. -/
theorem simplifyLoop_spec (T : Person → ℚ) (G R : List Person)
    (hGnd : G.Nodup) (hRnd : R.Nodup)
    (hdisj : ∀ q, q ∈ G → q ∈ R → False) :
    ∀ (fuel : Nat) (s : SimpState), LoopInv T G R s →
    s.givers.length - s.cg + (s.receivers.length - s.cr) < fuel →
    ∃ h, simplifyLoop fuel s = some h
      ∧ Antisym h
      ∧ (∀ (a b : Person) (v : ℚ), edgeVal h a b = some v →
          (a ∈ G ∧ b ∈ R ∧ 0 ≤ v) ∨ (a ∈ R ∧ b ∈ G ∧ v ≤ 0))
      ∧ (∀ q, q ∈ G → totalD h q = T q)
      ∧ (∀ q, q ∈ R → totalD h q = T q)
      ∧ (∀ q, q ∉ G → q ∉ R → totalD h q = 0) := by
  intro fuel
  induction fuel with
  | zero =>
    intro s _ hm
    exact absurd hm (by omega)
  | succ fuel ih =>
    intro s inv hm
    by_cases hcr : s.cr < s.receivers.length
    · -- one more iteration
      have hrtail_pos : 0 < tailSum s.receivers s.cr := by
        apply rowSum_pos
        · intro qr hqr
          obtain ⟨k, hk⟩ := tail_entry hqr
          exact inv.rlater _ qr (by omega) hk
        · intro hnil
          rw [List.drop_eq_nil_iff] at hnil
          omega
      have hgtail_pos : 0 < tailSum s.givers s.cg := by
        rw [inv.sums]
        exact hrtail_pos
      have hcg : s.cg < s.givers.length := by
        by_contra hc
        rw [tailSum_ge_length (by omega)] at hgtail_pos
        exact lt_irrefl 0 hgtail_pos
      obtain ⟨gv, hgv⟩ : ∃ gv, s.givers[s.cg]? = some gv :=
        ⟨_, List.getElem?_eq_getElem hcg⟩
      obtain ⟨rv, hrv⟩ : ∃ rv, s.receivers[s.cr]? = some rv :=
        ⟨_, List.getElem?_eq_getElem hcr⟩
      have hgmem : gv.1 ∈ G := by
        rw [← inv.gnames]
        exact List.mem_map_of_mem _ (List.getElem?_mem hgv)
      have hrmem : rv.1 ∈ R := by
        rw [← inv.rnames]
        exact List.mem_map_of_mem _ (List.getElem?_mem hrv)
      have hne : gv.1 ≠ rv.1 := fun hh => hdisj gv.1 hgmem (hh ▸ hrmem)
      have hmp : MutualEdges s.acc := mutualEdges_of_antisym inv.acc_as
      have hget : s.receivers[s.cr] = rv := by
        have hh := List.getElem?_eq_getElem hcr
        rw [hrv] at hh
        exact (Option.some.inj hh).symm
      have hgvnn : 0 ≤ gv.2 := inv.gcur gv hgv
      have hrvpos : 0 < rv.2 := inv.rlater _ rv le_rfl hrv
      have hGnodup : (s.givers.map Prod.fst).Nodup := by
        rw [inv.gnames]
        exact hGnd
      have hRnodup : (s.receivers.map Prod.fst).Nodup := by
        rw [inv.rnames]
        exact hRnd
      by_cases hlt : gv.2 < rv.2
      · -- the giver is exhausted and the giver cursor advances
        obtain ⟨acc1, hrun, hchar, -, hrowoff, htd, htp, -, -⟩ :=
          update_spec s.acc gv.1 rv.1 gv.2 hne hmp
        have htotoff : ∀ q, q ≠ gv.1 → q ≠ rv.1 →
            totalD acc1 q = totalD s.acc q := by
          intro q h1 h2
          unfold totalD
          rw [hrowoff q h1 h2]
        have hstep : simplifyStep s = .next
            ⟨s.givers.set s.cg (gv.1, gv.2 - gv.2),
             s.receivers.set s.cr (rv.1, rv.2 - gv.2),
             s.cg + 1, s.cr, acc1⟩ := by
          unfold simplifyStep
          rw [dif_pos hcr, hgv]
          simp only [List.get_eq_getElem, hget]
          rw [if_pos hlt, hrun]
        have inv1 : LoopInv T G R
            ⟨s.givers.set s.cg (gv.1, gv.2 - gv.2),
             s.receivers.set s.cr (rv.1, rv.2 - gv.2),
             s.cg + 1, s.cr, acc1⟩ := by
          refine ⟨?_, ?_, ?_, ?_, ?_, ?_, ?_, ?_, ?_, ?_, ?_, ?_, ?_⟩
          · show (s.givers.set s.cg (gv.1, gv.2 - gv.2)).map Prod.fst = G
            exact (keys_set hgv _).trans inv.gnames
          · show (s.receivers.set s.cr (rv.1, rv.2 - gv.2)).map Prod.fst = R
            exact (keys_set hrv _).trans inv.rnames
          · show tailSum (s.givers.set s.cg (gv.1, gv.2 - gv.2)) (s.cg + 1)
              = tailSum (s.receivers.set s.cr (rv.1, rv.2 - gv.2)) s.cr
            rw [tailSum_set_lt _ (show s.cg < s.cg + 1 by omega),
              tailSum_set_self _ hcr]
            show tailSum s.givers (s.cg + 1)
              = rv.2 - gv.2 + tailSum s.receivers (s.cr + 1)
            have e1 := tailSum_getElem hgv
            have e2 := tailSum_getElem hrv
            have e3 := inv.sums
            linarith
          · show ∀ (i : Nat) (pr : Person × ℚ), i < s.cg + 1 →
              (s.givers.set s.cg (gv.1, gv.2 - gv.2))[i]? = some pr → pr.2 = 0
            intro i pr hi hpr
            by_cases hic : i = s.cg
            · subst hic
              rw [List.getElem?_set, if_pos rfl, if_pos hcg] at hpr
              rw [← Option.some.inj hpr]
              simp
            · rw [List.getElem?_set_ne (fun hh => hic hh.symm)] at hpr
              exact inv.gdone i pr (by omega) hpr
          · show ∀ (j : Nat) (pr : Person × ℚ), j < s.cr →
              (s.receivers.set s.cr (rv.1, rv.2 - gv.2))[j]? = some pr → pr.2 = 0
            intro j pr hj hpr
            rw [List.getElem?_set_ne (show s.cr ≠ j by omega)] at hpr
            exact inv.rdone j pr hj hpr
          · show ∀ pr : Person × ℚ,
              (s.givers.set s.cg (gv.1, gv.2 - gv.2))[s.cg + 1]? = some pr →
              0 ≤ pr.2
            intro pr hpr
            rw [List.getElem?_set_ne (show s.cg ≠ s.cg + 1 by omega)] at hpr
            exact le_of_lt (inv.glater _ pr (by omega) hpr)
          · show ∀ (i : Nat) (pr : Person × ℚ), s.cg + 1 < i →
              (s.givers.set s.cg (gv.1, gv.2 - gv.2))[i]? = some pr → 0 < pr.2
            intro i pr hi hpr
            rw [List.getElem?_set_ne (show s.cg ≠ i by omega)] at hpr
            exact inv.glater i pr (by omega) hpr
          · show ∀ (j : Nat) (pr : Person × ℚ), s.cr ≤ j →
              (s.receivers.set s.cr (rv.1, rv.2 - gv.2))[j]? = some pr →
              0 < pr.2
            intro j pr hj hpr
            by_cases hjc : j = s.cr
            · subst hjc
              rw [List.getElem?_set, if_pos rfl, if_pos hcr] at hpr
              rw [← Option.some.inj hpr]
              show 0 < rv.2 - gv.2
              linarith
            · rw [List.getElem?_set_ne (fun hh => hjc hh.symm)] at hpr
              exact inv.rlater j pr hj hpr
          · show Antisym acc1
            exact antisym_of_update_char hne inv.acc_as hchar
          · show ∀ (a b : Person) (v : ℚ), edgeVal acc1 a b = some v →
              (a ∈ G ∧ b ∈ R ∧ 0 ≤ v) ∨ (a ∈ R ∧ b ∈ G ∧ v ≤ 0)
            intro a b v hv
            rw [hchar a b] at hv
            by_cases h1 : a = gv.1 ∧ b = rv.1
            · obtain ⟨ha, hb⟩ := h1
              subst ha
              subst hb
              rw [if_pos ⟨rfl, rfl⟩] at hv
              have hold : 0 ≤ edgeValD s.acc gv.1 rv.1 := by
                unfold edgeValD
                cases hE : edgeVal s.acc gv.1 rv.1 with
                | none => simp
                | some w =>
                  rcases inv.acc_pn gv.1 rv.1 w hE with ⟨-, -, hw⟩ | ⟨haR, -, -⟩
                  · simpa using hw
                  · exact absurd haR (fun hh => hdisj gv.1 hgmem hh)
              left
              refine ⟨hgmem, hrmem, ?_⟩
              rw [← Option.some.inj hv]
              linarith
            · by_cases h2 : a = rv.1 ∧ b = gv.1
              · obtain ⟨ha, hb⟩ := h2
                subst ha
                subst hb
                rw [if_neg h1, if_pos ⟨rfl, rfl⟩] at hv
                have hold : edgeValD s.acc rv.1 gv.1 ≤ 0 := by
                  unfold edgeValD
                  cases hE : edgeVal s.acc rv.1 gv.1 with
                  | none => simp
                  | some w =>
                    rcases inv.acc_pn rv.1 gv.1 w hE with ⟨haG, -, -⟩ | ⟨-, -, hw⟩
                    · exact absurd haG (fun hh => hdisj rv.1 hh hrmem)
                    · simpa using hw
                right
                refine ⟨hrmem, hgmem, ?_⟩
                rw [← Option.some.inj hv]
                linarith
              · rw [if_neg h1, if_neg h2] at hv
                exact inv.acc_pn a b v hv
          · show ∀ (i : Nat) (pr : Person × ℚ),
              (s.givers.set s.cg (gv.1, gv.2 - gv.2))[i]? = some pr →
              totalD acc1 pr.1 = T pr.1 - pr.2
            intro i pr hpr
            by_cases hic : i = s.cg
            · subst hic
              rw [List.getElem?_set, if_pos rfl, if_pos hcg] at hpr
              rw [← Option.some.inj hpr]
              show totalD acc1 gv.1 = T gv.1 - (gv.2 - gv.2)
              rw [htd, inv.acc_gsum _ gv hgv]
              ring
            · rw [List.getElem?_set_ne (fun hh => hic hh.symm)] at hpr
              have hnames : pr.1 ≠ gv.1 :=
                names_distinct s.givers hGnodup i s.cg pr gv hic hpr hgv
              have hprG : pr.1 ∈ G := by
                rw [← inv.gnames]
                exact List.mem_map_of_mem _ (List.getElem?_mem hpr)
              have hnames2 : pr.1 ≠ rv.1 :=
                fun hh => hdisj pr.1 hprG (hh ▸ hrmem)
              rw [htotoff pr.1 hnames hnames2]
              exact inv.acc_gsum i pr hpr
          · show ∀ (j : Nat) (pr : Person × ℚ),
              (s.receivers.set s.cr (rv.1, rv.2 - gv.2))[j]? = some pr →
              totalD acc1 pr.1 = T pr.1 + pr.2
            intro j pr hpr
            by_cases hjc : j = s.cr
            · subst hjc
              rw [List.getElem?_set, if_pos rfl, if_pos hcr] at hpr
              rw [← Option.some.inj hpr]
              show totalD acc1 rv.1 = T rv.1 + (rv.2 - gv.2)
              rw [htp, inv.acc_rsum _ rv hrv]
              ring
            · rw [List.getElem?_set_ne (fun hh => hjc hh.symm)] at hpr
              have hnames : pr.1 ≠ rv.1 :=
                names_distinct s.receivers hRnodup j s.cr pr rv hjc hpr hrv
              have hprR : pr.1 ∈ R := by
                rw [← inv.rnames]
                exact List.mem_map_of_mem _ (List.getElem?_mem hpr)
              have hnames2 : pr.1 ≠ gv.1 :=
                fun hh => hdisj pr.1 (hh ▸ hgmem) hprR
              rw [htotoff pr.1 hnames2 hnames]
              exact inv.acc_rsum j pr hpr
          · show ∀ q : Person, q ∉ G → q ∉ R → totalD acc1 q = 0
            intro q hqG hqR
            have h1 : q ≠ gv.1 := fun hh => hqG (hh ▸ hgmem)
            have h2 : q ≠ rv.1 := fun hh => hqR (hh ▸ hrmem)
            rw [htotoff q h1 h2]
            exact inv.acc_osum q hqG hqR
        have hmeas : (s.givers.set s.cg (gv.1, gv.2 - gv.2)).length - (s.cg + 1)
            + ((s.receivers.set s.cr (rv.1, rv.2 - gv.2)).length - s.cr)
            < fuel := by
          rw [List.length_set, List.length_set]
          omega
        obtain ⟨h, hloop, hprops⟩ := ih
          ⟨s.givers.set s.cg (gv.1, gv.2 - gv.2),
           s.receivers.set s.cr (rv.1, rv.2 - gv.2),
           s.cg + 1, s.cr, acc1⟩ inv1 hmeas
        refine ⟨h, ?_, hprops⟩
        rw [simplifyLoop_succ_next hstep]
        exact hloop
      · -- the receiver is exhausted and the receiver cursor advances
        obtain ⟨acc1, hrun, hchar, -, hrowoff, htd, htp, -, -⟩ :=
          update_spec s.acc gv.1 rv.1 rv.2 hne hmp
        have htotoff : ∀ q, q ≠ gv.1 → q ≠ rv.1 →
            totalD acc1 q = totalD s.acc q := by
          intro q h1 h2
          unfold totalD
          rw [hrowoff q h1 h2]
        have hge : rv.2 ≤ gv.2 := not_lt.mp hlt
        have hstep : simplifyStep s = .next
            ⟨s.givers.set s.cg (gv.1, gv.2 - rv.2),
             s.receivers.set s.cr (rv.1, rv.2 - rv.2),
             s.cg, s.cr + 1, acc1⟩ := by
          unfold simplifyStep
          rw [dif_pos hcr, hgv]
          simp only [List.get_eq_getElem, hget]
          rw [if_neg hlt, hrun]
        have inv1 : LoopInv T G R
            ⟨s.givers.set s.cg (gv.1, gv.2 - rv.2),
             s.receivers.set s.cr (rv.1, rv.2 - rv.2),
             s.cg, s.cr + 1, acc1⟩ := by
          refine ⟨?_, ?_, ?_, ?_, ?_, ?_, ?_, ?_, ?_, ?_, ?_, ?_, ?_⟩
          · show (s.givers.set s.cg (gv.1, gv.2 - rv.2)).map Prod.fst = G
            exact (keys_set hgv _).trans inv.gnames
          · show (s.receivers.set s.cr (rv.1, rv.2 - rv.2)).map Prod.fst = R
            exact (keys_set hrv _).trans inv.rnames
          · show tailSum (s.givers.set s.cg (gv.1, gv.2 - rv.2)) s.cg
              = tailSum (s.receivers.set s.cr (rv.1, rv.2 - rv.2)) (s.cr + 1)
            rw [tailSum_set_self _ hcg,
              tailSum_set_lt _ (show s.cr < s.cr + 1 by omega)]
            show gv.2 - rv.2 + tailSum s.givers (s.cg + 1)
              = tailSum s.receivers (s.cr + 1)
            have e1 := tailSum_getElem hgv
            have e2 := tailSum_getElem hrv
            have e3 := inv.sums
            linarith
          · show ∀ (i : Nat) (pr : Person × ℚ), i < s.cg →
              (s.givers.set s.cg (gv.1, gv.2 - rv.2))[i]? = some pr → pr.2 = 0
            intro i pr hi hpr
            rw [List.getElem?_set_ne (show s.cg ≠ i by omega)] at hpr
            exact inv.gdone i pr hi hpr
          · show ∀ (j : Nat) (pr : Person × ℚ), j < s.cr + 1 →
              (s.receivers.set s.cr (rv.1, rv.2 - rv.2))[j]? = some pr →
              pr.2 = 0
            intro j pr hj hpr
            by_cases hjc : j = s.cr
            · subst hjc
              rw [List.getElem?_set, if_pos rfl, if_pos hcr] at hpr
              rw [← Option.some.inj hpr]
              simp
            · rw [List.getElem?_set_ne (fun hh => hjc hh.symm)] at hpr
              exact inv.rdone j pr (by omega) hpr
          · show ∀ pr : Person × ℚ,
              (s.givers.set s.cg (gv.1, gv.2 - rv.2))[s.cg]? = some pr →
              0 ≤ pr.2
            intro pr hpr
            rw [List.getElem?_set, if_pos rfl, if_pos hcg] at hpr
            rw [← Option.some.inj hpr]
            show 0 ≤ gv.2 - rv.2
            linarith
          · show ∀ (i : Nat) (pr : Person × ℚ), s.cg < i →
              (s.givers.set s.cg (gv.1, gv.2 - rv.2))[i]? = some pr → 0 < pr.2
            intro i pr hi hpr
            rw [List.getElem?_set_ne (show s.cg ≠ i by omega)] at hpr
            exact inv.glater i pr hi hpr
          · show ∀ (j : Nat) (pr : Person × ℚ), s.cr + 1 ≤ j →
              (s.receivers.set s.cr (rv.1, rv.2 - rv.2))[j]? = some pr →
              0 < pr.2
            intro j pr hj hpr
            rw [List.getElem?_set_ne (show s.cr ≠ j by omega)] at hpr
            exact inv.rlater j pr (by omega) hpr
          · show Antisym acc1
            exact antisym_of_update_char hne inv.acc_as hchar
          · show ∀ (a b : Person) (v : ℚ), edgeVal acc1 a b = some v →
              (a ∈ G ∧ b ∈ R ∧ 0 ≤ v) ∨ (a ∈ R ∧ b ∈ G ∧ v ≤ 0)
            intro a b v hv
            rw [hchar a b] at hv
            by_cases h1 : a = gv.1 ∧ b = rv.1
            · obtain ⟨ha, hb⟩ := h1
              subst ha
              subst hb
              rw [if_pos ⟨rfl, rfl⟩] at hv
              have hold : 0 ≤ edgeValD s.acc gv.1 rv.1 := by
                unfold edgeValD
                cases hE : edgeVal s.acc gv.1 rv.1 with
                | none => simp
                | some w =>
                  rcases inv.acc_pn gv.1 rv.1 w hE with ⟨-, -, hw⟩ | ⟨haR, -, -⟩
                  · simpa using hw
                  · exact absurd haR (fun hh => hdisj gv.1 hgmem hh)
              left
              refine ⟨hgmem, hrmem, ?_⟩
              rw [← Option.some.inj hv]
              linarith
            · by_cases h2 : a = rv.1 ∧ b = gv.1
              · obtain ⟨ha, hb⟩ := h2
                subst ha
                subst hb
                rw [if_neg h1, if_pos ⟨rfl, rfl⟩] at hv
                have hold : edgeValD s.acc rv.1 gv.1 ≤ 0 := by
                  unfold edgeValD
                  cases hE : edgeVal s.acc rv.1 gv.1 with
                  | none => simp
                  | some w =>
                    rcases inv.acc_pn rv.1 gv.1 w hE with ⟨haG, -, -⟩ | ⟨-, -, hw⟩
                    · exact absurd haG (fun hh => hdisj rv.1 hh hrmem)
                    · simpa using hw
                right
                refine ⟨hrmem, hgmem, ?_⟩
                rw [← Option.some.inj hv]
                linarith
              · rw [if_neg h1, if_neg h2] at hv
                exact inv.acc_pn a b v hv
          · show ∀ (i : Nat) (pr : Person × ℚ),
              (s.givers.set s.cg (gv.1, gv.2 - rv.2))[i]? = some pr →
              totalD acc1 pr.1 = T pr.1 - pr.2
            intro i pr hpr
            by_cases hic : i = s.cg
            · subst hic
              rw [List.getElem?_set, if_pos rfl, if_pos hcg] at hpr
              rw [← Option.some.inj hpr]
              show totalD acc1 gv.1 = T gv.1 - (gv.2 - rv.2)
              rw [htd, inv.acc_gsum _ gv hgv]
              ring
            · rw [List.getElem?_set_ne (fun hh => hic hh.symm)] at hpr
              have hnames : pr.1 ≠ gv.1 :=
                names_distinct s.givers hGnodup i s.cg pr gv hic hpr hgv
              have hprG : pr.1 ∈ G := by
                rw [← inv.gnames]
                exact List.mem_map_of_mem _ (List.getElem?_mem hpr)
              have hnames2 : pr.1 ≠ rv.1 :=
                fun hh => hdisj pr.1 hprG (hh ▸ hrmem)
              rw [htotoff pr.1 hnames hnames2]
              exact inv.acc_gsum i pr hpr
          · show ∀ (j : Nat) (pr : Person × ℚ),
              (s.receivers.set s.cr (rv.1, rv.2 - rv.2))[j]? = some pr →
              totalD acc1 pr.1 = T pr.1 + pr.2
            intro j pr hpr
            by_cases hjc : j = s.cr
            · subst hjc
              rw [List.getElem?_set, if_pos rfl, if_pos hcr] at hpr
              rw [← Option.some.inj hpr]
              show totalD acc1 rv.1 = T rv.1 + (rv.2 - rv.2)
              rw [htp, inv.acc_rsum _ rv hrv]
              ring
            · rw [List.getElem?_set_ne (fun hh => hjc hh.symm)] at hpr
              have hnames : pr.1 ≠ rv.1 :=
                names_distinct s.receivers hRnodup j s.cr pr rv hjc hpr hrv
              have hprR : pr.1 ∈ R := by
                rw [← inv.rnames]
                exact List.mem_map_of_mem _ (List.getElem?_mem hpr)
              have hnames2 : pr.1 ≠ gv.1 :=
                fun hh => hdisj pr.1 (hh ▸ hgmem) hprR
              rw [htotoff pr.1 hnames2 hnames]
              exact inv.acc_rsum j pr hpr
          · show ∀ q : Person, q ∉ G → q ∉ R → totalD acc1 q = 0
            intro q hqG hqR
            have h1 : q ≠ gv.1 := fun hh => hqG (hh ▸ hgmem)
            have h2 : q ≠ rv.1 := fun hh => hqR (hh ▸ hrmem)
            rw [htotoff q h1 h2]
            exact inv.acc_osum q hqG hqR
        have hmeas : (s.givers.set s.cg (gv.1, gv.2 - rv.2)).length - s.cg
            + ((s.receivers.set s.cr (rv.1, rv.2 - rv.2)).length - (s.cr + 1))
            < fuel := by
          rw [List.length_set, List.length_set]
          omega
        obtain ⟨h, hloop, hprops⟩ := ih
          ⟨s.givers.set s.cg (gv.1, gv.2 - rv.2),
           s.receivers.set s.cr (rv.1, rv.2 - rv.2),
           s.cg, s.cr + 1, acc1⟩ inv1 hmeas
        refine ⟨h, ?_, hprops⟩
        rw [simplifyLoop_succ_next hstep]
        exact hloop
    · -- loop exit
      have hstep : simplifyStep s = .done s.acc := by
        unfold simplifyStep
        rw [dif_neg hcr]
      have hloop : simplifyLoop (fuel + 1) s = some s.acc := by
        unfold simplifyLoop
        rw [hstep]
      have hsum0 : tailSum s.givers s.cg = 0 := by
        rw [inv.sums, tailSum_ge_length (by omega)]
      have hrz : ∀ (j : Nat) (pr : Person × ℚ), s.receivers[j]? = some pr →
          pr.2 = 0 := by
        intro j pr hj
        have hlt := getElem?_some_lt hj
        exact inv.rdone j pr (by omega) hj
      have hgz : ∀ (i : Nat) (pr : Person × ℚ), s.givers[i]? = some pr →
          pr.2 = 0 := by
        intro i pr hi
        have hlt := getElem?_some_lt hi
        rcases lt_trichotomy i s.cg with hic | hic | hic
        · exact inv.gdone i pr hic hi
        · subst hic
          have h1 := tailSum_getElem hi
          have h2 : 0 ≤ tailSum s.givers (s.cg + 1) := by
            apply rowSum_nonneg
            intro qr hqr
            obtain ⟨k, hk⟩ := tail_entry hqr
            exact le_of_lt (inv.glater _ qr (by omega) hk)
          have h3 : 0 ≤ pr.2 := inv.gcur pr hi
          rw [hsum0] at h1
          linarith
        · exfalso
          by_cases hcg : s.cg < s.givers.length
          · have hgcur := List.getElem?_eq_getElem hcg
            have h1 := tailSum_getElem hgcur
            have h2 : 0 < tailSum s.givers (s.cg + 1) := by
              apply rowSum_pos
              · intro qr hqr
                obtain ⟨k, hk⟩ := tail_entry hqr
                exact inv.glater _ qr (by omega) hk
              · intro hnil
                rw [List.drop_eq_nil_iff] at hnil
                omega
            have h3 : 0 ≤ (s.givers[s.cg]).2 := inv.gcur _ hgcur
            rw [hsum0] at h1
            linarith
          · omega
      refine ⟨s.acc, hloop, inv.acc_as, inv.acc_pn, ?_, ?_, inv.acc_osum⟩
      · intro q hq
        rw [← inv.gnames] at hq
        obtain ⟨pr, hpr, hfst⟩ := List.mem_map.mp hq
        obtain ⟨i, hi⟩ := List.mem_iff_getElem?.mp hpr
        have h0 := hgz i pr hi
        have h1 := inv.acc_gsum i pr hi
        rw [← hfst, h1, h0, sub_zero]
      · intro q hq
        rw [← inv.rnames] at hq
        obtain ⟨pr, hpr, hfst⟩ := List.mem_map.mp hq
        obtain ⟨j, hj⟩ := List.mem_iff_getElem?.mp hpr
        have h0 := hrz j pr hj
        have h1 := inv.acc_rsum j pr hj
        rw [← hfst, h1, h0, add_zero]

/-- The receiver work list simplify_transactions builds: one entry per
person with negative total, holding the negated total. -/
def receiversOf (g : Graph) : List (Person × ℚ) :=
  (people_and_total_debt g).1.filterMap (fun p =>
    if (findVal (people_and_total_debt g).2 p).getD 0 < 0
    then some (p, -((findVal (people_and_total_debt g).2 p).getD 0)) else none)

/-- The giver work list simplify_transactions builds: one entry per
person with positive total, holding the total. -/
def giversOf (g : Graph) : List (Person × ℚ) :=
  (people_and_total_debt g).1.filterMap (fun p =>
    if (findVal (people_and_total_debt g).2 p).getD 0 > 0
    then some (p, (findVal (people_and_total_debt g).2 p).getD 0) else none)

/-- simplify_transactions is the greedy loop run from the work lists. -/
theorem simplify_run (g : Graph) :
    simplify_transactions g =
      simplifyLoop ((giversOf g).length + (receiversOf g).length + 1)
        ⟨giversOf g, receiversOf g, 0, 0, []⟩ := rfl

theorem findVal_keyMap (l : List Person) (F : Person → ℚ) (p : Person)
    (hp : p ∈ l) :
    findVal (l.map (fun k => (k, F k))) p = some (F p) := by
  induction l with
  | nil => cases hp
  | cons k l ih =>
    by_cases hkp : k = p
    · subst hkp
      simp [findVal]
    · have hp2 : p ∈ l := by
        rcases List.mem_cons.mp hp with h | h
        · exact absurd h.symm hkp
        · exact h
      simp [findVal, hkp, ih hp2]

theorem giversOf_eq (g : Graph) :
    giversOf g = (g.map Prod.fst).filterMap
      (fun p => if 0 < totalD g p then some (p, totalD g p) else none) := by
  show (g.map Prod.fst).filterMap (fun p =>
      if (findVal ((g.map Prod.fst).map (fun k => (k, rowSum (getRow g k)))) p).getD 0 > 0
      then some (p,
        (findVal ((g.map Prod.fst).map (fun k => (k, rowSum (getRow g k)))) p).getD 0)
      else none)
    = (g.map Prod.fst).filterMap
      (fun p => if 0 < totalD g p then some (p, totalD g p) else none)
  apply List.filterMap_congr
  intro p hp
  rw [findVal_keyMap _ _ p hp]
  rfl

theorem receiversOf_eq (g : Graph) :
    receiversOf g = (g.map Prod.fst).filterMap
      (fun p => if totalD g p < 0 then some (p, -totalD g p) else none) := by
  show (g.map Prod.fst).filterMap (fun p =>
      if (findVal ((g.map Prod.fst).map (fun k => (k, rowSum (getRow g k)))) p).getD 0 < 0
      then some (p,
        -((findVal ((g.map Prod.fst).map (fun k => (k, rowSum (getRow g k)))) p).getD 0))
      else none)
    = (g.map Prod.fst).filterMap
      (fun p => if totalD g p < 0 then some (p, -totalD g p) else none)
  apply List.filterMap_congr
  intro p hp
  rw [findVal_keyMap _ _ p hp]
  rfl

theorem filterMap_if_map_fst (l : List Person) (c : Person → Prop)
    [DecidablePred c] (F : Person → ℚ) :
    (l.filterMap (fun p => if c p then some (p, F p) else none)).map Prod.fst
      = l.filter (fun p => decide (c p)) := by
  induction l with
  | nil => rfl
  | cons p l ih =>
    by_cases h : c p
    · simp only [List.filterMap_cons, if_pos h, List.filter_cons]
      rw [if_pos (by simpa using h)]
      simp [ih]
    · simp only [List.filterMap_cons, if_neg h, List.filter_cons]
      rw [if_neg (by simpa using h)]
      exact ih

theorem mem_filterMap_if {l : List Person} {c : Person → Prop}
    [DecidablePred c] {F : Person → ℚ} {pr : Person × ℚ}
    (h : pr ∈ l.filterMap (fun p => if c p then some (p, F p) else none)) :
    pr.1 ∈ l ∧ c pr.1 ∧ pr.2 = F pr.1 := by
  rw [List.mem_filterMap] at h
  obtain ⟨a, ha, hfa⟩ := h
  by_cases hc : c a
  · rw [if_pos hc] at hfa
    have hpr : pr = (a, F a) := (Option.some.inj hfa).symm
    subst hpr
    exact ⟨ha, hc, rfl⟩
  · rw [if_neg hc] at hfa
    cases hfa

theorem rowSum_filterMap_if (l : List Person) (c : Person → Prop)
    [DecidablePred c] (F : Person → ℚ) :
    rowSum (l.filterMap (fun p => if c p then some (p, F p) else none))
      = (l.map (fun p => if c p then F p else 0)).sum := by
  induction l with
  | nil => rfl
  | cons p l ih =>
    by_cases h : c p
    · simp only [List.filterMap_cons, if_pos h, List.map_cons, List.sum_cons,
        rowSum_cons]
      rw [ih]
    · simp only [List.filterMap_cons, if_neg h, List.map_cons, List.sum_cons]
      rw [ih]
      ring

theorem sum_if_split (l : List Person) (T : Person → ℚ) :
    (l.map (fun p => if 0 < T p then T p else 0)).sum
      - (l.map (fun p => if T p < 0 then -T p else 0)).sum
      = (l.map T).sum := by
  induction l with
  | nil => simp
  | cons p l ih =>
    simp only [List.map_cons, List.sum_cons]
    by_cases h1 : 0 < T p
    · rw [if_pos h1, if_neg (by linarith)]
      linarith
    · by_cases h2 : T p < 0
      · rw [if_neg h1, if_pos h2]
        linarith
      · rw [if_neg h1, if_neg h2]
        have h0 : T p = 0 := le_antisymm (not_lt.mp h1) (not_lt.mp h2)
        rw [h0]
        linarith

theorem mem_giver_names (g : Graph) (q : Person) :
    q ∈ (giversOf g).map Prod.fst ↔
      (q ∈ g.map Prod.fst ∧ 0 < totalD g q) := by
  rw [giversOf_eq, filterMap_if_map_fst, List.mem_filter]
  simp

theorem mem_receiver_names (g : Graph) (q : Person) :
    q ∈ (receiversOf g).map Prod.fst ↔
      (q ∈ g.map Prod.fst ∧ totalD g q < 0) := by
  rw [receiversOf_eq, filterMap_if_map_fst, List.mem_filter]
  simp

/-- The state entering the greedy loop satisfies the loop invariant, for
any graph with distinct keys and zero overall sum. -/
theorem simplify_initial_inv (g : Graph) (hnd : (g.map Prod.fst).Nodup)
    (hsum : graphSum g = 0) :
    LoopInv (totalD g) ((giversOf g).map Prod.fst)
      ((receiversOf g).map Prod.fst)
      ⟨giversOf g, receiversOf g, 0, 0, []⟩ := by
  have hgchar : ∀ pr : Person × ℚ, pr ∈ giversOf g →
      pr.1 ∈ g.map Prod.fst ∧ 0 < totalD g pr.1 ∧ pr.2 = totalD g pr.1 := by
    intro pr hpr
    rw [giversOf_eq] at hpr
    exact mem_filterMap_if hpr
  have hrchar : ∀ pr : Person × ℚ, pr ∈ receiversOf g →
      pr.1 ∈ g.map Prod.fst ∧ totalD g pr.1 < 0 ∧ pr.2 = -totalD g pr.1 := by
    intro pr hpr
    rw [receiversOf_eq] at hpr
    exact mem_filterMap_if hpr
  refine ⟨rfl, rfl, ?_, ?_, ?_, ?_, ?_, ?_, ?_, ?_, ?_, ?_, ?_⟩
  · show tailSum (giversOf g) 0 = tailSum (receiversOf g) 0
    unfold tailSum
    rw [List.drop_zero, List.drop_zero, giversOf_eq, receiversOf_eq,
      rowSum_filterMap_if, rowSum_filterMap_if]
    have hsplit := sum_if_split (g.map Prod.fst) (totalD g)
    have htot : ((g.map Prod.fst).map (totalD g)).sum = 0 := by
      have hh := keys_totals_sum g hnd
      rw [hsum] at hh
      exact hh
    linarith
  · show ∀ (i : Nat) (pr : Person × ℚ), i < 0 →
      (giversOf g)[i]? = some pr → pr.2 = 0
    intro i pr hi
    exact absurd hi (by omega)
  · show ∀ (j : Nat) (pr : Person × ℚ), j < 0 →
      (receiversOf g)[j]? = some pr → pr.2 = 0
    intro j pr hj
    exact absurd hj (by omega)
  · show ∀ pr : Person × ℚ, (giversOf g)[0]? = some pr → 0 ≤ pr.2
    intro pr hpr
    have hc := hgchar pr (List.getElem?_mem hpr)
    rw [hc.2.2]
    exact le_of_lt hc.2.1
  · show ∀ (i : Nat) (pr : Person × ℚ), 0 < i →
      (giversOf g)[i]? = some pr → 0 < pr.2
    intro i pr hi hpr
    have hc := hgchar pr (List.getElem?_mem hpr)
    rw [hc.2.2]
    exact hc.2.1
  · show ∀ (j : Nat) (pr : Person × ℚ), 0 ≤ j →
      (receiversOf g)[j]? = some pr → 0 < pr.2
    intro j pr hj hpr
    have hc := hrchar pr (List.getElem?_mem hpr)
    rw [hc.2.2]
    linarith [hc.2.1]
  · show Antisym []
    intro a b v hv
    simp [edgeVal, getRow, findVal] at hv
  · show ∀ (a b : Person) (v : ℚ), edgeVal [] a b = some v → _ ∨ _
    intro a b v hv
    simp [edgeVal, getRow, findVal] at hv
  · show ∀ (i : Nat) (pr : Person × ℚ), (giversOf g)[i]? = some pr →
      totalD [] pr.1 = totalD g pr.1 - pr.2
    intro i pr hpr
    have hc := hgchar pr (List.getElem?_mem hpr)
    rw [hc.2.2]
    simp [totalD, getRow, findVal, rowSum]
  · show ∀ (j : Nat) (pr : Person × ℚ), (receiversOf g)[j]? = some pr →
      totalD [] pr.1 = totalD g pr.1 + pr.2
    intro j pr hpr
    have hc := hrchar pr (List.getElem?_mem hpr)
    rw [hc.2.2]
    simp [totalD, getRow, findVal, rowSum]
  · show ∀ q : Person, q ∉ (giversOf g).map Prod.fst →
      q ∉ (receiversOf g).map Prod.fst → totalD [] q = 0
    intro q _ _
    rfl

/-- Common packaging of the master lemma for a graph built from
transactions with distinct endpoints. -/
theorem simplify_master (ts : List Txn)
    (hdp : ∀ t ∈ ts, t.debtor ≠ t.pay_to) (g : Graph)
    (hg : transaction_adjacency_graph ts = some g) :
    ∃ h, simplify_transactions g = some h
      ∧ Antisym h
      ∧ (∀ (a b : Person) (v : ℚ), edgeVal h a b = some v →
          (a ∈ (giversOf g).map Prod.fst ∧ b ∈ (receiversOf g).map Prod.fst ∧ 0 ≤ v)
          ∨ (a ∈ (receiversOf g).map Prod.fst ∧ b ∈ (giversOf g).map Prod.fst ∧ v ≤ 0))
      ∧ (∀ q, totalD h q = totalD g q) := by
  obtain ⟨g2, hrun2, -, hsum2, hkeys2⟩ := builder_spec ts hdp
  rw [hg] at hrun2
  obtain rfl : g = g2 := Option.some.inj hrun2
  have hnd : (g.map Prod.fst).Nodup := by
    rw [hkeys2]
    exact List.nodup_dedup _
  have hGnd : ((giversOf g).map Prod.fst).Nodup := by
    rw [giversOf_eq, filterMap_if_map_fst]
    exact hnd.filter _
  have hRnd : ((receiversOf g).map Prod.fst).Nodup := by
    rw [receiversOf_eq, filterMap_if_map_fst]
    exact hnd.filter _
  have hdisj : ∀ q, q ∈ (giversOf g).map Prod.fst →
      q ∈ (receiversOf g).map Prod.fst → False := by
    intro q h1 h2
    rw [mem_giver_names] at h1
    rw [mem_receiver_names] at h2
    linarith [h1.2, h2.2]
  obtain ⟨h, hloop, has, hpn, hgt, hrt, hot⟩ :=
    simplifyLoop_spec (totalD g) _ _ hGnd hRnd hdisj
      ((giversOf g).length + (receiversOf g).length + 1)
      ⟨giversOf g, receiversOf g, 0, 0, []⟩
      (simplify_initial_inv g hnd hsum2)
      (by show (giversOf g).length - 0 + ((receiversOf g).length - 0) < _
          omega)
  refine ⟨h, by rw [simplify_run]; exact hloop, has, hpn, ?_⟩
  intro q
  by_cases hqG : q ∈ (giversOf g).map Prod.fst
  · exact hgt q hqG
  · by_cases hqR : q ∈ (receiversOf g).map Prod.fst
    · exact hrt q hqR
    · rw [hot q hqG hqR]
      by_cases hmem : q ∈ g.map Prod.fst
      · have h1 : ¬0 < totalD g q :=
          fun hc => hqG ((mem_giver_names g q).mpr ⟨hmem, hc⟩)
        have h2 : ¬totalD g q < 0 :=
          fun hc => hqR ((mem_receiver_names g q).mpr ⟨hmem, hc⟩)
        linarith [not_lt.mp h1, not_lt.mp h2]
      · have hck : containsKey g q = false := by
          rw [Bool.eq_false_iff]
          exact fun hc => hmem ((containsKey_iff_mem_keys g q).mp hc)
        unfold totalD
        rw [getRow_of_not_contains g q hck]
        rfl

/-- C4 (amended): for a graph built from transactions with distinct
debtor and payee, the greedy loop of simplify_transactions terminates
without an index error or failed assertion and returns a result. -/
theorem simplify_terminates (ts : List Txn)
    (hdp : ∀ t ∈ ts, t.debtor ≠ t.pay_to) (g : Graph)
    (hg : transaction_adjacency_graph ts = some g) :
    ∃ s, simplify_transactions g = some s := by
  obtain ⟨h, hrun, -, -, -⟩ := simplify_master ts hdp g hg
  exact ⟨h, hrun⟩

/-- Witness for C4 on the single transaction A owes B 3. -/
theorem simplify_terminates_witness :
    ∃ s, simplify_transactions [("A", [("B", 3)]), ("B", [("A", -3)])]
      = some s :=
  simplify_terminates [⟨"A", "B", 3⟩] (by decide)
    [("A", [("B", 3)]), ("B", [("A", -3)])] (by with_unfolding_all rfl)

/-- C4 as stated is false on a self-loop: after the transaction d owes d
5, the only person has total -5, the givers list is empty, and the first
loop iteration raises an IndexError, modelled as none. -/
theorem simplify_index_error_on_self_loop :
    ∃ g, transaction_adjacency_graph [⟨"d", "d", 5⟩] = some g
      ∧ simplify_transactions g = none :=
  ⟨[("d", [("d", -5)])], by with_unfolding_all rfl,
   by with_unfolding_all rfl⟩

/-- C2 (amended): for a graph built from transactions with distinct
debtor and payee, each person's row sum in the simplified graph equals
their net total in the original graph; a person absent from the
simplified graph reads as an empty row with sum zero. -/
theorem simplified_conservation (ts : List Txn)
    (hdp : ∀ t ∈ ts, t.debtor ≠ t.pay_to) (g s : Graph)
    (hg : transaction_adjacency_graph ts = some g)
    (hs : simplify_transactions g = some s) :
    ∀ p, totalD s p = totalD g p := by
  obtain ⟨h, hrun, -, -, htot⟩ := simplify_master ts hdp g hg
  rw [hrun] at hs
  obtain rfl : h = s := Option.some.inj hs
  exact htot

/-- Witness for C2 on the transactions A owes B 5 and C owes A 2, read
at person A, whose simplified row differs from the original one. -/
theorem simplified_conservation_witness :
    totalD [("C", [("B", 2)]), ("B", [("C", -2), ("A", -3)]),
        ("A", [("B", 3)])] "A"
      = totalD [("C", [("A", 2)]), ("B", [("A", -5)]),
        ("A", [("B", 5), ("C", -2)])] "A" :=
  simplified_conservation [⟨"A", "B", 5⟩, ⟨"C", "A", 2⟩] (by decide)
    [("C", [("A", 2)]), ("B", [("A", -5)]), ("A", [("B", 5), ("C", -2)])]
    [("C", [("B", 2)]), ("B", [("C", -2), ("A", -3)]), ("A", [("B", 3)])]
    (by with_unfolding_all rfl) (by with_unfolding_all rfl) "A"

/-- C2 as stated is false without the data-model restrictions: the single
self-loop transaction d owes d with amount -5 builds the graph with
total[d] = 5, yet the simplified graph is empty, so d's simplified row
sum is 0, not 5. -/
theorem simplified_conservation_fails_self_loop :
    ∃ g s, transaction_adjacency_graph [⟨"d", "d", -5⟩] = some g
      ∧ simplify_transactions g = some s
      ∧ totalD g "d" = 5 ∧ totalD s "d" = 0 :=
  ⟨[("d", [("d", 5)])], [], by with_unfolding_all rfl,
   by with_unfolding_all rfl, by with_unfolding_all rfl, rfl⟩

/-- C5 (amended): in the simplified graph of a graph built from
transactions with positive amounts and distinct endpoints, every entry
has an opposite entry holding the exact negative, entries on a net
giver's side are nonnegative (zero-amount entries can occur after a tie),
and every strictly positive entry points from a net giver. -/
theorem simplified_flow_signs (ts : List Txn)
    (hdp : ∀ t ∈ ts, t.debtor ≠ t.pay_to)
    (hpos : ∀ t ∈ ts, 0 < t.amount) (g s : Graph)
    (hg : transaction_adjacency_graph ts = some g)
    (hs : simplify_transactions g = some s) :
    ∀ (a b : Person) (v : ℚ), edgeVal s a b = some v →
      edgeVal s b a = some (-v)
      ∧ (0 < totalD g a → 0 ≤ v)
      ∧ (0 < v → 0 < totalD g a) := by
  obtain ⟨h, hrun, has, hpn, -⟩ := simplify_master ts hdp g hg
  rw [hrun] at hs
  obtain rfl : h = s := Option.some.inj hs
  intro a b v hv
  refine ⟨has a b v hv, ?_, ?_⟩
  · intro hta
    rcases hpn a b v hv with ⟨-, -, hh⟩ | ⟨haR, -, -⟩
    · exact hh
    · rw [mem_receiver_names] at haR
      linarith [haR.2]
  · intro hv0
    rcases hpn a b v hv with ⟨haG, -, -⟩ | ⟨-, -, hh⟩
    · rw [mem_giver_names] at haG
      exact haG.2
    · linarith

/-- Witness for C5 on the single transaction A owes B 3, edge A to B. -/
theorem simplified_flow_signs_witness :
    edgeVal [("A", [("B", 3)]), ("B", [("A", -3)])] "B" "A" = some (-3)
      ∧ (0 < totalD [("A", [("B", 3)]), ("B", [("A", -3)])] "A" → (0 : ℚ) ≤ 3)
      ∧ ((0 : ℚ) < 3 →
          0 < totalD [("A", [("B", 3)]), ("B", [("A", -3)])] "A") :=
  simplified_flow_signs [⟨"A", "B", 3⟩] (by decide) (by decide)
    [("A", [("B", 3)]), ("B", [("A", -3)])]
    [("A", [("B", 3)]), ("B", [("A", -3)])]
    (by with_unfolding_all rfl) (by with_unfolding_all rfl)
    "A" "B" 3 (by with_unfolding_all rfl)

/-- C5 as stated is false: for the transactions A owes C 5 and B owes D 5
(positive amounts, distinct endpoints), the tie between A and C makes the
next iteration record a zero-amount payment from A to D, so the simplified
graph holds an entry in the giver-owes-receiver direction that is zero,
not strictly positive. -/
theorem simplified_zero_edge_on_tie :
    ∃ g s, transaction_adjacency_graph [⟨"A", "C", 5⟩, ⟨"B", "D", 5⟩] = some g
      ∧ simplify_transactions g = some s
      ∧ 0 < totalD g "A" ∧ totalD g "D" < 0
      ∧ edgeVal s "A" "D" = some 0 :=
  ⟨[("A", [("C", 5)]), ("B", [("D", 5)]), ("C", [("A", -5)]),
    ("D", [("B", -5)])],
   [("A", [("C", 5), ("D", 0)]), ("C", [("A", -5)]),
    ("D", [("A", 0), ("B", -5)]), ("B", [("D", 5)])],
   by with_unfolding_all rfl, by with_unfolding_all rfl,
   by rw [show totalD [("A", [("C", 5)]), ("B", [("D", 5)]), ("C", [("A", -5)]),
       ("D", [("B", -5)])] "A" = 5 from by with_unfolding_all rfl]
      norm_num,
   by rw [show totalD [("A", [("C", 5)]), ("B", [("D", 5)]), ("C", [("A", -5)]),
       ("D", [("B", -5)])] "D" = -5 from by with_unfolding_all rfl]
      norm_num,
   by with_unfolding_all rfl⟩

/-- C7 as stated is false: Kevin's net total on the standard example is
762.5, not 802.5. -/
theorem standard_example_kevin_total :
    ∃ g, transaction_adjacency_graph standardTransactions = some g
      ∧ totalD g "Kevin" = 762.5 ∧ (762.5 : ℚ) ≠ 802.5 :=
  ⟨[("Xander", [("Kevin", -790), ("John", -730), ("William", -800)]),
    ("Kevin", [("Xander", 790), ("William", -12.5 - 15)]),
    ("John", [("Xander", 730), ("William", 100)]),
    ("William", [("Xander", 800), ("John", -100), ("Kevin", 12.5 + 15)])],
   by with_unfolding_all rfl, by with_unfolding_all rfl, by norm_num⟩

end Transaction
